import Mathlib

/-!
# Verification of the traceviz core pipeline

A shallow embedding, in Lean, of the trace-parsing and graph-building core of
the traceviz repository (`js/trace-parser.js` and the grouping/layout passes of
the graph renderer), together with theorems settling the specification's
claims about it.

Conventions used throughout the embedding:
* DOM attribute reads (`getAttribute`) yield `Option String` (`none` = absent).
* The JavaScript idiom `attr || default` treats the empty string as absent;
  it is modelled by `jsOr`.
* JavaScript numbers appearing in the layout are modelled as `Int`: the
  corrective layout pass only compares positions and adds integer constants.
* `Object.keys` enumeration order (integer-like keys first, ascending) is
  modelled where it can influence results (`jsKeyOrder`); where disjointness
  makes the order irrelevant (the id-dedup rename groups) a first-occurrence
  order is used and the irrelevance is noted at the definition.
-/

namespace Traceviz

/-- JS `a || d` on an optional string attribute: `null` and `""` fall back. -/
def jsOr (o : Option String) (d : String) : String :=
  match o with
  | some s => if s = "" then d else s
  | none => d

/-- Does the first list occur as a leading segment of the second? -/
def leadsWith : List Char → List Char → Bool
  | [], _ => true
  | _ :: _, [] => false
  | a :: as, b :: bs => a == b && leadsWith as bs

/-- Does the first list occur as a contiguous segment of the second? -/
def occursIn (pat : List Char) : List Char → Bool
  | [] => pat.isEmpty
  | b :: bs => leadsWith pat (b :: bs) || occursIn pat bs

/-- JS `String.prototype.includes`: substring test. -/
def jsIncludes (s pat : String) : Bool :=
  occursIn pat.toList s.toList

/-- Leading decimal digits of a character list, as a number (none if the
first character is not a digit). -/
def leadingNat (l : List Char) : Option Nat :=
  let ds := l.takeWhile (·.isDigit)
  if ds = [] then none
  else some (ds.foldl (fun a c => a * 10 + (c.toNat - 48)) 0)

/-- JS `parseInt` restricted to optional sign and decimal digits (the form
taken by `time` attributes); leading blanks are skipped, trailing garbage is
ignored, and no digits yield `none` (NaN). -/
def jsParseInt (s : String) : Option Int :=
  let l := s.toList.dropWhile (fun c => c = ' ' ∨ c = '\t' ∨ c = '\n' ∨ c = '\r')
  match l with
  | '-' :: rest => (leadingNat rest).map (fun n => -(n : Int))
  | '+' :: rest => (leadingNat rest).map (fun n => (n : Int))
  | _ => (leadingNat l).map (fun n => (n : Int))

/-- `parseInt(x) || 0`: NaN collapses to 0. -/
def jsParseIntOr0 (s : String) : Int :=
  (jsParseInt s).getD 0

/-- Base64 alphabet value of a character (`A-Za-z0-9+/`). -/
def b64Val (c : Char) : Option Nat :=
  if 'A' ≤ c ∧ c ≤ 'Z' then some (c.toNat - 65)
  else if 'a' ≤ c ∧ c ≤ 'z' then some (c.toNat - 97 + 26)
  else if '0' ≤ c ∧ c ≤ '9' then some (c.toNat - 48 + 52)
  else if c = '+' then some 62
  else if c = '/' then some 63
  else none

/-- ASCII whitespace stripped by the forgiving-base64 decode. -/
def isB64Ws (c : Char) : Bool :=
  c = ' ' ∨ c = '\t' ∨ c = '\n' ∨ c = '\x0c' ∨ c = '\r'

/-- Remove up to two trailing `=` when the length is a multiple of four
(forgiving-base64, step 2). -/
def b64Unpad (l : List Char) : List Char :=
  if l.length % 4 = 0 then
    if l.getLast? = some '=' then
      let l1 := l.dropLast
      if l1.getLast? = some '=' then l1.dropLast else l1
    else l
  else l

/-- Turn a list of 6-bit values into bytes (forgiving-base64, final step):
groups of four values give three bytes; a trailing group of two or three
values gives one or two bytes, surplus bits discarded. -/
def b64Bytes : List Nat → Option (List Nat)
  | [] => some []
  | [_] => none
  | [a, b] => some [a * 4 + b / 16]
  | [a, b, c] => some [a * 4 + b / 16, b % 16 * 16 + c / 4]
  | a :: b :: c :: d :: rest =>
    (b64Bytes rest).map (fun tl =>
      (a * 4 + b / 16) :: (b % 16 * 16 + c / 4) :: (c % 4 * 64 + d) :: tl)

/-- Browser `atob` (WHATWG forgiving-base64 decode): strips ASCII whitespace,
drops up to two trailing `=` on 4-aligned input, fails on a length ≡ 1 mod 4
or on any character outside the alphabet, and maps each decoded byte to the
Latin-1 character of its value. -/
def atob (s : String) : Option String := do
  let l := (s.toList.filter (fun c => ¬ isB64Ws c))
  let l := b64Unpad l
  if l.length % 4 = 1 then none
  else
    let vals ← l.mapM b64Val
    let bytes ← b64Bytes vals
    pure (String.mk (bytes.map Char.ofNat))

/-- The sanitising replacement applied to decoded object/return content:
`<ᵃ>ᵃ&ᵃ"ᵃ'` are rewritten to HTML entities (the `&amp;`-prefix test in the
source is on a single character and never fires, so `&` always maps). -/
def escChar (c : Char) : List Char :=
  if c = '<' then "&lt;".toList
  else if c = '>' then "&gt;".toList
  else if c = '&' then "&amp;".toList
  else if c = '"' then "&quot;".toList
  else if c = '\'' then "&#39;".toList
  else [c]

/-- String-level sanitiser used on decoded object/return content. -/
def escapeHtml (s : String) : String :=
  String.mk (s.toList.foldr (fun c acc => escChar c ++ acc) [])

/-- Stable insertion of an element into a key-sorted list: the element goes
before the first entry whose key is not smaller, so earlier elements keep
priority on equal keys (matching JS stable `Array.prototype.sort`). -/
def insertK (key : α → Int) (e : α) : List α → List α
  | [] => [e]
  | x :: xs => if key x < key e then x :: insertK key e xs else e :: x :: xs

/-- Stable ascending sort by an integer key (the result JS stable
`Array.prototype.sort` with comparator `keyA - keyB` produces). -/
def sortK (key : α → Int) : List α → List α
  | [] => []
  | x :: xs => insertK key x (sortK key xs)

/-! ## JS object key enumeration order -/

/-- Numeric value of a digit string (what `toNat` yields on the all-digit
keys the array-index test admits). -/
def digitsVal (l : List Char) : Nat :=
  l.foldl (fun a c => a * 10 + (c.toNat - 48)) 0

/-- Is the string a canonical array-index key (JS property-order rule)? -/
def isArrayIndexKey (s : String) : Bool :=
  s.toList ≠ [] ∧ s.toList.all (·.isDigit) ∧ (s = "0" ∨ s.toList.head? ≠ some '0') ∧
    digitsVal s.toList < 4294967295

/-- `Object.keys` enumeration order: array-index keys first, ascending, then
the remaining keys in insertion order. -/
def jsKeyOrder (keys : List String) : List String :=
  sortK (fun s => (digitsVal s.toList : Int)) (keys.filter isArrayIndexKey) ++
    keys.filter (fun s => ¬ isArrayIndexKey s)

/-! ## Identifier dedup (TraceParser.extractEvents, first/second pass) -/

/-- Positions (document indices, starting at `n`) at which `d` occurs. -/
def positionsFrom (d : String) (n : Nat) : List String → List Nat
  | [] => []
  | x :: xs =>
    if x = d then n :: positionsFrom d (n + 1) xs else positionsFrom d (n + 1) xs

/-- `objectIdPositions[d]`: all positions of `d` in scan order. -/
def positionsOf (ids : List String) (d : String) : List Nat :=
  positionsFrom d 0 ids

/-- Keys of the first-pass maps in insertion (first-encounter) order. -/
def distinctKeys (l : List String) : List String :=
  l.foldl (fun acc x => if x ∈ acc then acc else acc ++ [x]) []

/-- `objectIdPositions[d]` lookup in the mutable map (`[]` when absent). -/
def posMapGet : List (String × List Nat) → String → List Nat
  | [], _ => []
  | (k, ps) :: rest, d => if k = d then ps else posMapGet rest d

/-- `objectIdPositions[id].push(i)`, creating the entry on first sight. -/
def posMapAdd : List (String × List Nat) → String → Nat → List (String × List Nat)
  | [], id, i => [(id, [i])]
  | (k, ps) :: rest, id, i =>
    if k = id then (k, ps ++ [i]) :: rest else (k, ps) :: posMapAdd rest id i

/-- `objectIdPositions[id] = ps`: overwrite in place, or append a new key. -/
def posMapSet : List (String × List Nat) → String → List Nat → List (String × List Nat)
  | [], id, ps => [(id, ps)]
  | (k, qs) :: rest, id, ps =>
    if k = id then (k, ps) :: rest else (k, qs) :: posMapSet rest id ps

/-- The first collection pass: record every id's scan positions. -/
def buildPosMapFrom : Nat → List String → List (String × List Nat) →
    List (String × List Nat)
  | _, [], m => m
  | n, id :: rest, m => buildPosMapFrom (n + 1) rest (posMapAdd m id n)

def buildPosMap (ids : List String) : List (String × List Nat) :=
  buildPosMapFrom 0 ids []

/-- The inner rename loop for one duplicate id: occurrence `k` of the
*current* positions entry becomes `"{d}-{k}"` in the id list, and the
tracking map gains (or overwrites!) an entry for the new id — the
`objectIdPositions[newId] = [pos]` write.  That overwrite is what suppresses
later renames when a synthesized id collides with another duplicate key. -/
def renameLoop (d : String) : Nat → List Nat →
    List String × List (String × List Nat) →
    List String × List (String × List Nat)
  | _, [], st => st
  | k, p :: rest, st =>
    renameLoop d (k + 1) rest
      (st.1.set p (d ++ "-" ++ toString k),
        posMapSet st.2 (d ++ "-" ++ toString k) [p])

/-- One iteration of the per-duplicate loop: the positions are re-read from
the current (possibly overwritten) map, and occurrences 2..N are renamed. -/
def dedupStep (st : List String × List (String × List Nat)) (d : String) :
    List String × List (String × List Nat) :=
  renameLoop d 1 ((posMapGet st.2 d).drop 1) st

/-- Rename the second and later occurrences of `d` (positions taken from the
original scan) to `d-1`, `d-2`, …: the per-duplicate step as the spec
describes it (no map overwrites). -/
def renameOne (orig : List String) (acc : List String) (d : String) : List String :=
  (((positionsOf orig d).drop 1).enum).foldl
    (fun a kp => a.set kp.2 (d ++ "-" ++ toString (kp.1 + 1))) acc

/-- The duplicate-objectId fix as implemented: `duplicateIds` is the
`Object.keys` snapshot (array-index keys first, then insertion order)
filtered by the first-pass occurrence counts, but each iteration re-reads
`objectIdPositions[duplicateId]`, which the `objectIdPositions[newId]`
writes of earlier iterations may have overwritten. -/
def dedupIds (ids : List String) : List String :=
  (((jsKeyOrder (distinctKeys ids)).filter (fun d => 1 < ids.count d)).foldl
    dedupStep (ids, buildPosMap ids)).1

/-- The rename scheme the spec claims: every duplicate id's occurrences 2..N
become `"{id}-{occurrenceIndex}"`, positions always taken from the original
scan.  `dedupIds` agrees with this only when no synthesized id collides with
an existing id. -/
def dedupIdsSpec (ids : List String) : List String :=
  ((distinctKeys ids).filter (fun d => 1 < ids.count d)).foldl (renameOne ids) ids

/-! ## Raw document model

The parser reads a DOM; the embedding works from the attribute/text content
the parser actually consumes.  Attributes are `Option String`; element text
content is `String` (empty when the element is empty). -/

/-- An `<arg>` element: `tracked`/`hashCode` attributes and its text. -/
structure RawArg where
  tracked : Option String := none
  hashCode : Option String := none
  text : String := ""
deriving DecidableEq, Repr

/-- An `<object>` or `<return>` element of an event. -/
structure RawData where
  tracked : Option String := none
  hashCode : Option String := none
  text : String := ""
deriving DecidableEq, Repr

/-- One `propagation-event`/`method-event`/`tag-event` element, restricted to
the attributes and children the graph pipeline consumes (display-only
children — `stack`, `properties`, `taint-ranges`, `tags`, `sources` — are
carried nowhere in the claims and are omitted). -/
structure RawEvent where
  objectId : Option String := none
  time : Option String := none
  thread : Option String := none
  type : Option String := none
  source : Option String := none
  target : Option String := none
  tagName : String := "propagation-event"
  parentIds : List String := []
  args : List RawArg := []
  object : Option RawData := none
  ret : Option RawData := none
deriving DecidableEq, Repr

/-! ## Parsed events (TraceParser.extractEvents) -/

/-- A parsed argument (`TraceParser.extractArgs`). -/
structure Arg where
  hashCode : Option String
  tracked : Bool
  encodedValue : String
  decodedValue : Option String
deriving DecidableEq, Repr

/-- Parsed `objectData`/`returnData` of an event. -/
structure DataField where
  tracked : Bool
  hashCode : String
  encoded : String
  decoded : Option String
deriving DecidableEq, Repr

/-- A parsed event.  `type` and `eventType` are the same string in the
source; a single `eventType` field stands for both. -/
structure Event where
  objectId : String
  time : String
  thread : String
  eventType : String
  isMethodEvent : Bool
  isTriggerEvent : Bool
  isSourceEvent : Bool
  parentObjectIds : List String
  args : List Arg
  objectData : Option DataField
  returnData : Option DataField
deriving DecidableEq, Repr

/-- Decode one tracked argument: `atob` on success is used verbatim; on
failure the fixed string `"Unable to decode content"` is stored. -/
def mkArg (a : RawArg) : Arg :=
  { hashCode := a.hashCode
    tracked := a.tracked = some "true"
    encodedValue := a.text
    decodedValue :=
      if a.tracked = some "true" then
        some ((atob a.text).getD "Unable to decode content")
      else none }

/-- `TraceParser.extractArgs` over the `<arg>` children. -/
def extractArgs (l : List RawArg) : List Arg :=
  l.map mkArg

/-- The object/return content decode: try `atob`, fall back to the raw text,
then HTML-sanitise any non-empty result. -/
def decodeField (enc : String) : String :=
  let d0 := (atob enc).getD enc
  if d0 = "" then d0 else escapeHtml d0

/-- Parse an `<object>`/`<return>` element into a `DataField`. -/
def mkDataField (d : RawData) : DataField :=
  { tracked := d.tracked = some "true"
    hashCode := d.hashCode.getD ""
    encoded := d.text
    decoded := if d.text = "" then none else some (decodeField d.text) }

/-- Assemble a parsed event from its element and its post-dedup objectId. -/
def mkEvent (finalId : String) (r : RawEvent) : Event :=
  let ty := r.type.getD "Unknown"
  { objectId := finalId
    time := r.time.getD "0"
    thread := r.thread.getD ""
    eventType := ty
    isMethodEvent := r.tagName = "method-event"
    isTriggerEvent := ty = "Trigger"
    isSourceEvent := ty = "Creation" ∨ ty = "Source"
    parentObjectIds := r.parentIds
    args := extractArgs r.args
    objectData := r.object.map mkDataField
    returnData := r.ret.map mkDataField }

/-- Sort key of the combined event list: `parseInt(time attribute) || 0`
(an absent attribute reads as NaN and collapses to 0). -/
def rawTimeKey (r : RawEvent) : Int :=
  match r.time with
  | none => 0
  | some s => jsParseIntOr0 s

/-- Effective objectIds before dedup: `getAttribute("objectId") || "event-i"`
over the time-sorted list. -/
def effIdsFrom (n : Nat) : List RawEvent → List String
  | [] => []
  | r :: rs => jsOr r.objectId ("event-" ++ toString n) :: effIdsFrom (n + 1) rs

/-- Effective objectIds of the whole sorted list. -/
def effIds (l : List RawEvent) : List String :=
  effIdsFrom 0 l

/-- `TraceParser.extractEvents`: merge and time-sort the event elements
(stably), run the duplicate-objectId fix, then map each element to its
parsed `Event` (re-reading the possibly renamed objectId). -/
def extractEvents (raws : List RawEvent) : List Event :=
  let sorted := sortK rawTimeKey raws
  let ids := dedupIds (effIds sorted)
  (ids.zip sorted).map (fun p => mkEvent p.1 p.2)

/-! ## Graph edges (TraceParser.buildEdges) -/

/-- A graph edge. -/
structure Edge where
  source : String
  target : String
deriving DecidableEq, Repr

/-- The `^(\d+)(?:-\d+)?$` test used for objectIds: a digit run optionally
followed by `-` and another digit run; returns the leading digit run (the
base id). -/
def numericIdBase (s : String) : Option String :=
  if s.toList.takeWhile (·.isDigit) = [] then none
  else
    match s.toList.dropWhile (·.isDigit) with
    | [] => some (String.mk (s.toList.takeWhile (·.isDigit)))
    | '-' :: tl =>
      if tl ≠ [] ∧ tl.all (·.isDigit) then
        some (String.mk (s.toList.takeWhile (·.isDigit)))
      else none
    | _ => none

/-- All objectIds, in document order (`eventMap` membership). -/
def eventIds (events : List Event) : List String :=
  events.map (·.objectId)

/-- `eventPositions[id]`: later writes overwrite, so the map holds the last
document index carrying the id. -/
def lastIdxOf (ids : List String) (id : String) : Option Nat :=
  (positionsOf ids id).getLast?

/-- `event.isSourceEvent || type === 'Creation' || type === 'Source'`. -/
def isSourceEv (e : Event) : Bool :=
  e.isSourceEvent ∨ e.eventType = "Creation" ∨ e.eventType = "Source"

/-- `event.isTriggerEvent || type === 'Trigger'`. -/
def isViolationEv (e : Event) : Bool :=
  e.isTriggerEvent ∨ e.eventType = "Trigger"

/-- `nodesMissingObjectId`: ids failing the numeric test and starting with
`event-` (the parser's synthesized ids). -/
def missingIdEvents (events : List Event) : List String :=
  (events.filter (fun e =>
    ¬ (numericIdBase e.objectId).isSome ∧ e.objectId.startsWith "event-")).map (·.objectId)

/-- `baseIdMap[b]`: events whose objectId passes the numeric test with base
`b`, in document order. -/
def baseIdEvents (events : List Event) (b : String) : List Event :=
  events.filter (fun e => numericIdBase e.objectId = some b)

/-- `sourceNodeMap[b]`: the objectId of the last source event with base `b`
(later writes overwrite). -/
def sourceNodeFor (events : List Event) (b : String) : Option String :=
  ((events.filter (fun e => numericIdBase e.objectId = some b ∧ isSourceEv e)).map
    (·.objectId)).getLast?

/-- `parseInt(event.time) || 0`, the key of `buildEdges`' re-sort. -/
def evTimeKey (e : Event) : Int :=
  jsParseIntOr0 e.time

/-- Source-event ids collected from the sorted list. -/
def sourceNodesList (events : List Event) : List String :=
  ((sortK evTimeKey events).filter isSourceEv).map (·.objectId)

/-- The backwards scan for the event occupying position `i = pos-1, …, 0`
(`events.find(e => eventPositions[e.objectId] === i)`), defaulting to
`"route"` when none is found. -/
def prevSearch (events : List Event) : Nat → String
  | 0 => "route"
  | i + 1 =>
    match events.find? (fun e => lastIdxOf (eventIds events) e.objectId = some i) with
    | some e => e.objectId
    | none => prevSearch events i

/-- The forwards scan for the event occupying position `pos+1, …, n-1`. -/
def nextSearchAux (events : List Event) : Nat → Nat → Option String
  | _, 0 => none
  | i, fuel + 1 =>
    match events.find? (fun e => lastIdxOf (eventIds events) e.objectId = some i) with
    | some e => some e.objectId
    | none => nextSearchAux events (i + 1) fuel

/-- Successor id in document order (none when `pos` is the final position:
the source guards with `currentPosition < events.length - 1`). -/
def nextSearch (events : List Event) (pos : Nat) : Option String :=
  nextSearchAux events (pos + 1) (events.length - (pos + 1))

/-- `eventPositions[e.objectId]` for an event known to be in the list. -/
def docPos (events : List Event) (e : Event) : Nat :=
  (lastIdxOf (eventIds events) e.objectId).getD 0

/-- The group-redirect test on one parent id: the parent has a numeric base
`b`, a source with base `b` exists, more than one event shares base `b`, an
event literally named `b-group` exists, and the current event is not itself a
source whose id starts with `b`.  Returns `b` when the redirect applies. -/
def redirectCond (events : List Event) (e : Event) (p : String) : Option String :=
  match numericIdBase p with
  | some b =>
    if (sourceNodeFor events b).isSome ∧ 1 < (baseIdEvents events b).length ∧
        (b ++ "-group") ∈ eventIds events ∧ ¬ (isSourceEv e ∧ e.objectId.startsWith b) then
      some b
    else none
  | none => none

/-- Edges contributed by one event's `parentObjectIds` loop. -/
def parentEdges (events : List Event) (e : Event) : List Edge :=
  e.parentObjectIds.flatMap (fun p =>
    match redirectCond events e p with
    | some b => [⟨b ++ "-group", e.objectId⟩]
    | none =>
      if p = "route" ∨ p = "request" ∨ p ∈ eventIds events then [⟨p, e.objectId⟩]
      else [])

/-- A parent id is *resolvable* for an event exactly when the parent loop
adds an edge for it: either the group redirect applies, or the id is
`route`/`request` or an existing event id. -/
def parentResolves (events : List Event) (e : Event) (p : String) : Bool :=
  (redirectCond events e p).isSome ∨ p = "route" ∨ p = "request" ∨ p ∈ eventIds events

/-- The backwards scan for the nearest preceding source node in the sorted
list (`for i = sourceIndex-1; i >= 0; i--`), defaulting to `"route"`. -/
def bestSourceSearch (sorted : List Event) (srcIds : List String) : Nat → String
  | 0 => "route"
  | i + 1 =>
    match sorted.get? i with
    | some x => if x.objectId ∈ srcIds then x.objectId else bestSourceSearch sorted srcIds i
    | none => bestSourceSearch sorted srcIds i

/-- Per-event step of the first pass: the edges pushed while visiting the
event (with `prevId` the previous iteration's id, initially `"route"`) and
the `nodesWithoutParents` entries recorded for the second pass. -/
def contrib (events sorted : List Event) (srcIds : List String) (prevId : String)
    (e : Event) : List Edge × List (String × String) :=
  if isViolationEv e then
    ([⟨prevSearch events (docPos events e), e.objectId⟩], [])
  else if e.parentObjectIds ≠ [] then
    (parentEdges events e, [])
  else if isSourceEv e then
    ([⟨"route", e.objectId⟩], [])
  else if e.objectId ∈ missingIdEvents events then
    (⟨prevSearch events (docPos events e), e.objectId⟩ ::
      (match nextSearch events (docPos events e) with
       | some nid => [⟨e.objectId, nid⟩]
       | none => []), [])
  else if srcIds ≠ [] ∧ e.objectId ∉ srcIds then
    ([], [(bestSourceSearch sorted srcIds
      ((sorted.findIdx? (fun x => x.objectId = e.objectId)).getD 0), e.objectId)])
  else
    ([], [(prevId, e.objectId)])

/-- The hardcoded 853/951 repair scan at the end of `buildEdges`: for every
event whose objectId contains `951` and that lists a parent containing `853`,
append `853-group → 951-group` unless that pair is already present. -/
def hackPass (events : List Event) (edges0 : List Edge) : List Edge :=
  events.foldl
    (fun acc e =>
      if jsIncludes e.objectId "951" ∧ e.parentObjectIds.any (fun p => jsIncludes p "853") then
        if (⟨"853-group", "951-group"⟩ : Edge) ∈ acc then acc
        else acc ++ [⟨"853-group", "951-group"⟩]
      else acc)
    edges0

/-- `TraceParser.buildEdges`.  The source threads `previousEventId` through
the loop and pushes into one array; equivalently the edge list is
`request→route`, then each sorted event's first-pass pushes in order (the
previous id before event `k` being event `k-1`'s objectId, or `"route"`),
then the second-pass edges for the recorded parentless nodes, with the
853/951 repair scan appended last. -/
def buildEdges (events : List Event) : List Edge :=
  let sorted := sortK evTimeKey events
  let srcIds := sourceNodesList events
  let prevIds := "route" :: sorted.map (·.objectId)
  let contribs := (prevIds.zip sorted).map (fun pe => contrib events sorted srcIds pe.1 pe.2)
  let firstPass := contribs.flatMap (·.1)
  let pendings := contribs.flatMap (·.2)
  hackPass events
    (⟨"request", "route"⟩ :: (firstPass ++ pendings.map (fun pr => ⟨pr.1, pr.2⟩)))

/-! ## Graph nodes (TraceParser.buildNodes) and trace data -/

/-- A graph node, restricted to the fields the grouping and layout passes
read for their decisions (`methodSignature`, `taintedData`, `details` and the
other display strings influence no claim and are omitted; `memberIds` stands
for the `originalNodes` of a collapsed representative, by id). -/
structure GNode where
  id : String
  type : String
  label : String
  category : Option Nat := none
  isSourceEvent : Bool := false
  isTriggerEvent : Bool := false
  isCollapsedGroup : Bool := false
  memberIds : List String := []
deriving DecidableEq, Repr

/-- A request header or parameter. -/
structure HeaderKV where
  name : String
  value : String
deriving DecidableEq, Repr

/-- Parsed request metadata. -/
structure RequestInfo where
  method : String
  protocol : String
  version : String
  port : String
  uri : String
  queryString : String
  headers : List HeaderKV
  parameters : List HeaderKV
deriving DecidableEq, Repr

/-- Parsed vulnerability metadata. -/
structure VulnerabilityInfo where
  uuid : String
  ruleId : String
  applicationName : String
  applicationId : String
  title : String
  link : String
deriving DecidableEq, Repr

/-- The event node pushed for one parsed event. -/
def eventNode (e : Event) : GNode :=
  { id := e.objectId
    type := "trace-event"
    label :=
      if e.isTriggerEvent ∨ e.eventType = "Trigger" then "Violation"
      else if e.isSourceEvent ∨ e.eventType = "Creation" ∨ e.eventType = "Source" then "Source"
      else "Propagator"
    isSourceEvent := e.isSourceEvent ∨ e.eventType = "Creation" ∨ e.eventType = "Source"
    isTriggerEvent := e.isTriggerEvent ∨ e.eventType = "Trigger" }

/-- `TraceParser.buildNodes`: the HTTP-request node, the route node, then
one trace-event node per event in order (the request metadata feeds only the
omitted display strings of the first two nodes). -/
def buildNodes (_req : RequestInfo) (events : List Event) : List GNode :=
  { id := "request", type := "http-request", label := "HTTP Request" } ::
  { id := "route", type := "route", label := "Route" } ::
  events.map eventNode

/-! ## Document extraction (TraceParser.extractTraceData) -/

/-- An `<h>`/`<p>` element of the request. -/
structure RawHeader where
  name : Option String := none
  value : Option String := none
deriving DecidableEq, Repr

/-- The `<request>` element. -/
structure RequestEl where
  method : Option String := none
  protocol : Option String := none
  version : Option String := none
  port : Option String := none
  uri : Option String := none
  qs : Option String := none
  headers : Option (List RawHeader) := none
  parameters : Option (List RawHeader) := none
deriving DecidableEq, Repr

/-- The `<finding>` element (the attributes consumed, its first `<request>`
descendant, and the event elements of its first `<events>` descendant). -/
structure FindingEl where
  ruleId : Option String := none
  vulnTitle : Option String := none
  uuid : Option String := none
  appName : Option String := none
  appId : Option String := none
  link : Option String := none
  request : Option RequestEl := none
  events : Option (List RawEvent) := none
deriving DecidableEq, Repr

/-- A well-formed parsed document, reduced to its first `<finding>`. -/
structure XmlDoc where
  finding : Option FindingEl := none
deriving DecidableEq, Repr

/-- The value `extractTraceData` returns. -/
structure TraceData where
  vulnerabilityInfo : VulnerabilityInfo
  requestInfo : RequestInfo
  events : List Event
  nodes : List GNode
  edges : List Edge
deriving DecidableEq, Repr

/-- `extractHeaders`/`extractParameters`: a missing container or empty list
yields `[]`; otherwise each element's `name`/`value` attributes (defaulting
to `""`). -/
def extractHeaders (o : Option (List RawHeader)) : List HeaderKV :=
  match o with
  | none => []
  | some hs => hs.map (fun h => ⟨h.name.getD "", h.value.getD ""⟩)

/-- The structure returned from the catch-all of `extractTraceData`: a
minimal placeholder with a single error node and no edges (its
`requestInfo` literal carries no version/port/query fields; they are
rendered here as `""`). -/
def errorTraceData (msg : String) : TraceData :=
  { vulnerabilityInfo :=
      { uuid := "error", ruleId := "error", applicationName := "Error"
        applicationId := "error", title := "Error: " ++ msg, link := "#" }
    requestInfo :=
      { method := "GET", protocol := "http", version := "", port := ""
        uri := "/", queryString := "", headers := [], parameters := [] }
    events := []
    nodes := [{ id := "error", type := "http-request", label := "Error: " ++ msg }]
    edges := [] }

/-- `TraceParser.extractTraceData`: a missing `finding`, `request` or
`events` element throws internally; the surrounding catch converts the
throw into the `errorTraceData` placeholder, so the function always returns
a structure. -/
def extractTraceData (doc : XmlDoc) : TraceData :=
  match doc.finding with
  | none => errorTraceData "No finding element found in XML"
  | some f =>
    let ruleId := jsOr f.ruleId "unknown"
    let uri0 := match f.request with
      | some r => jsOr r.uri "/"
      | none => "/"
    let title := match f.vulnTitle with
      | some t => if t ≠ "" then t else ruleId ++ " in " ++ uri0
      | none => ruleId ++ " in " ++ uri0
    let vuln : VulnerabilityInfo :=
      { uuid := jsOr f.uuid "unknown", ruleId := ruleId
        applicationName := jsOr f.appName "unknown"
        applicationId := jsOr f.appId "unknown", title := title
        link := jsOr f.link "#" }
    match f.request with
    | none => errorTraceData "No request element found in XML"
    | some r =>
      let req : RequestInfo :=
        { method := jsOr r.method "GET", protocol := jsOr r.protocol "http"
          version := jsOr r.version "1.1", port := jsOr r.port "80"
          uri := jsOr r.uri "/", queryString := jsOr r.qs ""
          headers := extractHeaders r.headers
          parameters := extractHeaders r.parameters }
      match f.events with
      | none => errorTraceData "No events element found in XML"
      | some evs =>
        let events := extractEvents evs
        { vulnerabilityInfo := vuln, requestInfo := req, events := events
          nodes := buildNodes req events, edges := buildEdges events }

/-! ## Node grouping (GraphRenderer.groupSimilarNodes) -/

/-- Source classification of a node in the grouping pass. -/
def isSrcNode (n : GNode) : Bool :=
  n.isSourceEvent ∨ n.type = "Creation" ∨ n.type = "Source"

/-- Base ids present among the nodes, in insertion order. -/
def nodeBaseIds (nodes : List GNode) : List String :=
  distinctKeys (nodes.filterMap (fun n => numericIdBase n.id))

/-- Base ids in the order the grouping loop visits them. -/
def orderedBaseIds (nodes : List GNode) : List String :=
  jsKeyOrder (nodeBaseIds nodes)

/-- `baseIdGroups[b].sources`. -/
def sourcesOf (nodes : List GNode) (b : String) : List GNode :=
  nodes.filter (fun n => numericIdBase n.id = some b ∧ isSrcNode n)

/-- `baseIdGroups[b].others`. -/
def othersOf (nodes : List GNode) (b : String) : List GNode :=
  nodes.filter (fun n => numericIdBase n.id = some b ∧ ¬ isSrcNode n)

/-- Base ids whose non-source members are collapsed (`others.length > 1`). -/
def qualifyingBaseIds (nodes : List GNode) : List String :=
  (orderedBaseIds nodes).filter (fun b => 1 < (othersOf nodes b).length)

/-- An entry of `edgesToUpdate`. -/
structure UpdateRec where
  oldS : String
  oldT : String
  newS : Option String := none
  newT : Option String := none
  remove : Bool := false
deriving DecidableEq, Repr

/-- The update records one group's scan pushes for one edge: a removal for a
source→other edge inside the group, else a source-side redirect and/or a
target-side redirect. -/
def edgeUpdates (nodes : List GNode) (b : String) (e : Edge) : List UpdateRec :=
  if (sourcesOf nodes b).any (·.id = e.source) ∧
      (othersOf nodes b).any (·.id = e.target) then
    [{ oldS := e.source, oldT := e.target, remove := true }]
  else
    (if numericIdBase e.source = some b ∧ (othersOf nodes b).any (·.id = e.source) ∧
        ¬ (othersOf nodes b).any (·.id = e.target) then
      [{ oldS := e.source, oldT := e.target, newS := some (b ++ "-group")
         newT := some e.target }]
    else []) ++
    (if numericIdBase e.target = some b ∧ (othersOf nodes b).any (·.id = e.target) ∧
        ¬ (othersOf nodes b).any (·.id = e.source) ∧
        ¬ (sourcesOf nodes b).any (·.id = e.source) then
      [{ oldS := e.source, oldT := e.target, newS := some e.source
         newT := some (b ++ "-group") }]
    else [])

/-- All update records, in collection order (groups outer, edges inner). -/
def allUpdates (nodes : List GNode) (edges : List Edge) : List UpdateRec :=
  (qualifyingBaseIds nodes).flatMap (fun b => edges.flatMap (edgeUpdates nodes b))

/-- `edgesToUpdate.find(u => u.oldSource === e.source && u.oldTarget === e.target)`. -/
def findUpdate (ups : List UpdateRec) (e : Edge) : Option UpdateRec :=
  ups.find? (fun u => u.oldS = e.source ∧ u.oldT = e.target)

/-- Filter out removed edges and apply the first matching redirect (the
source also requires truthy — non-empty — replacement endpoints). -/
def applyUpdates (edges : List Edge) (ups : List UpdateRec) : List Edge :=
  (edges.filter (fun e =>
    match findUpdate ups e with
    | some u => ¬ u.remove
    | none => true)).map (fun e =>
      match findUpdate ups e with
      | some u =>
        match u.newS, u.newT with
        | some ns, some nt => if ns ≠ "" ∧ nt ≠ "" then ⟨ns, nt⟩ else e
        | _, _ => e
      | none => e)

/-- The representative node replacing a collapsed non-source group. -/
def repNode (b : String) (oths : List GNode) : GNode :=
  match oths with
  | o0 :: _ =>
    { id := b ++ "-group"
      type := o0.type
      label := o0.label
      category := o0.category
      isCollapsedGroup := true
      isTriggerEvent := oths.any (·.isTriggerEvent)
      memberIds := oths.map (·.id) }
  | [] => { id := b ++ "-group", type := "", label := "", isCollapsedGroup := true }

/-- The dedup key `"{source}->{target}"`. -/
def edgeKey (e : Edge) : String :=
  e.source ++ "->" ++ e.target

/-- Keep the first edge carrying each key. -/
def dedupByKey : List Edge → List String → List Edge
  | [], _ => []
  | e :: es, seen =>
    if edgeKey e ∈ seen then dedupByKey es seen
    else e :: dedupByKey es (edgeKey e :: seen)

/-- The grouping pass up to and including the edge dedup (everything of
`groupSimilarNodes` before the final 853/951 node check). -/
def groupCollapse (nodes : List GNode) (edges : List Edge) : List GNode × List Edge :=
  let quals := qualifyingBaseIds nodes
  let removeIds := quals.flatMap (fun b => (othersOf nodes b).map (·.id))
  let reps := quals.map (fun b => repNode b (othersOf nodes b))
  let newEdges := quals.flatMap (fun b =>
    (sourcesOf nodes b).map (fun s => (⟨s.id, b ++ "-group"⟩ : Edge)))
  let updated := applyUpdates edges (allUpdates nodes edges) ++ newEdges
  (nodes.filter (fun n => n.id ∉ removeIds) ++ reps, dedupByKey updated [])

/-- `GraphRenderer.groupSimilarNodes` as a pure function on the data's nodes
and edges, including the final special fix that appends
`853-group → 951-group` when both group nodes exist and the connection is
missing. -/
def groupSimilarNodes (nodes : List GNode) (edges : List Edge) : List GNode × List Edge :=
  if (groupCollapse nodes edges).1.any (·.id = "853-group") ∧
      (groupCollapse nodes edges).1.any (·.id = "951-group") ∧
      ¬ (groupCollapse nodes edges).2.any
          (fun e => e.source = "853-group" ∧ e.target = "951-group") then
    ((groupCollapse nodes edges).1,
      (groupCollapse nodes edges).2 ++ [⟨"853-group", "951-group"⟩])
  else groupCollapse nodes edges

/-! ## Hierarchical layout, final corrective pass (GraphRenderer.createDagLayout) -/

/-- A positioned node as the corrective pass sees it (`y` as `Int`: the pass
only compares positions and adds the constants 50 and 80). -/
structure LNode where
  id : String
  y : Int
deriving DecidableEq, Repr

/-- `parentMap.get(id)`: sources of the edges targeting `id`, in edge order. -/
def parentsOf (links : List Edge) (id : String) : List String :=
  (links.filter (·.target = id)).map (·.source)

/-- The fold computing `maxParentY` (parents resolved against the current
array by first-match id lookup; unresolved parents are skipped). -/
def maxParentY (arr : List LNode) (ps : List String) : Int :=
  ps.foldl
    (fun acc pid =>
      match arr.find? (·.id = pid) with
      | some pn => if acc < pn.y then pn.y else acc
      | none => acc)
    0

/-- One iteration of the corrective loop: node `i` is pushed to
`maxParentY + 80` when it has parents, `maxParentY > 0` and it sits at or
above `maxParentY + 50`; `request`/`route` are skipped. -/
def correctiveStep (links : List Edge) (arr : List LNode) (i : Nat) : List LNode :=
  match arr.get? i with
  | none => arr
  | some nd =>
    if nd.id = "request" ∨ nd.id = "route" then arr
    else if parentsOf links nd.id ≠ [] then
      if 0 < maxParentY arr (parentsOf links nd.id) ∧
          nd.y ≤ maxParentY arr (parentsOf links nd.id) + 50 then
        arr.set i { nd with y := maxParentY arr (parentsOf links nd.id) + 80 }
      else arr
    else arr

/-- The state of the corrective sweep after its first `m` iterations (the
loop prefix; `correctivePass` is `passUpTo` at the full length). -/
def passUpTo (links : List Edge) (nodes : List LNode) (m : Nat) : List LNode :=
  (List.range m).foldl (correctiveStep links) nodes

/-- The final corrective pass: the in-order sweep over the node array. -/
def correctivePass (nodes : List LNode) (links : List Edge) : List LNode :=
  (List.range nodes.length).foldl (correctiveStep links) nodes

/-- Position of the node carrying `id` after the pass (first match). -/
def yOf (arr : List LNode) (id : String) : Int :=
  match arr.find? (·.id = id) with
  | some n => n.y
  | none => 0

/-! ## Concrete instances used by the closed theorems -/

/-- Event literal: the parsed form of an event element with the given
objectId, type and parent list (no args, no object/return content). -/
def mkEv (id ty : String) (ps : List String) (tm : String := "0") : Event :=
  { objectId := id, time := tm, thread := "", eventType := ty
    isMethodEvent := false, isTriggerEvent := ty = "Trigger"
    isSourceEvent := ty = "Creation" ∨ ty = "Source"
    parentObjectIds := ps, args := [], objectData := none, returnData := none }

/-- A minimal request used where `buildNodes` needs one. -/
def sampleReq : RequestInfo :=
  { method := "GET", protocol := "http", version := "1.1", port := "80"
    uri := "/", queryString := "", headers := [], parameters := [] }

/-- An event element with objectId attribute `42` (and no time). -/
def rawEv42 : RawEvent := { objectId := some "42" }

/-- An event element with objectId attribute `42-1`. -/
def rawEv421 : RawEvent := { objectId := some "42-1" }

/-- A document with no `finding` element. -/
def docNoFinding : XmlDoc := {}

/-- A document whose `finding` lacks a `request` element. -/
def docNoRequest : XmlDoc := { finding := some {} }

/-- A document whose `finding` lacks an `events` element. -/
def docNoEvents : XmlDoc := { finding := some { request := some {} } }

/-- A tracked `<arg>` whose text is not decodable Base64. -/
def rawArgBad : RawArg := { tracked := some "true", text := "!!!" }

/-- A tracked `<object>` whose text is not decodable Base64 and contains a
character the sanitiser rewrites. -/
def rawObjBad : RawData := { tracked := some "true", text := "<" }

/-- An event listing the same resolvable parent twice. -/
def evC6 : Event := mkEv "5" "P2P" ["route", "route"]

/-- An event whose only parent id resolves to nothing. -/
def evC7 : Event := mkEv "5" "P2P" ["999"]

/-- An event whose id contains `951` and that lists a parent containing
`853` (triggering the hardcoded repair edge). -/
def ev951 : Event := mkEv "951" "P2P" ["853"]

/-- A preceding Creation event for the C5 counterexample. -/
def evC5a : Event := mkEv "10" "Creation" []

/-- A Trigger event whose id contains `951` and whose parent list contains
`853`: the repair scan reads both, adding a second incoming edge. -/
def evC5t : Event := mkEv "951-group" "Trigger" ["853"] "1"

/-- A preceding Creation event for the C5 witness. -/
def evC5s : Event := mkEv "7" "Creation" []

/-- A Trigger event preceded by `evC5s` in document order. -/
def evC5w : Event := mkEv "9" "Trigger" [] "1"

/-- A source node with base id 7. -/
def c8Source : GNode :=
  { id := "7", type := "trace-event", label := "Source", isSourceEvent := true }

/-- The `k`-th non-source node with base id 7. -/
def c8Other (k : Nat) : GNode :=
  { id := "7-" ++ toString k, type := "trace-event", label := "Propagator" }

/-- The grouping-scenario node set: one source and three non-source members
of base id 7. -/
def c8Nodes : List GNode := [c8Source, c8Other 1, c8Other 2, c8Other 3]

/-- Positioned nodes where a child (`3`) precedes its parent (`2`) in array
order and the parent is later pushed below the child by its own parent. -/
def cNodes : List LNode := [⟨"3", 200⟩, ⟨"2", 100⟩, ⟨"1", 1000⟩]

/-- Edges `1 → 2 → 3` for the corrective-pass counterexample. -/
def cLinks : List Edge := [⟨"1", "2"⟩, ⟨"2", "3"⟩]

/-- Positioned nodes with the parent first in array order. -/
def wNodes : List LNode := [⟨"1", 100⟩, ⟨"2", 120⟩]

/-- The single edge `1 → 2` for the corrective-pass witness. -/
def wLinks : List Edge := [⟨"1", "2"⟩]

/-! # Lemmas -/

/-! ## Stable sort -/

theorem mem_insertK (key : α → Int) (e a : α) (l : List α) :
    a ∈ insertK key e l ↔ a = e ∨ a ∈ l := by
  induction l with
  | nil => simp [insertK]
  | cons x xs ih =>
    simp only [insertK]
    split
    · simp only [List.mem_cons, ih]
      tauto
    · simp

theorem insertK_perm (key : α → Int) (e : α) (l : List α) :
    List.Perm (insertK key e l) (e :: l) := by
  induction l with
  | nil => simp [insertK]
  | cons x xs ih =>
    simp only [insertK]
    split
    · exact (ih.cons x).trans (List.Perm.swap e x xs)
    · exact List.Perm.refl _

theorem sortK_perm (key : α → Int) (l : List α) : List.Perm (sortK key l) l := by
  induction l with
  | nil => exact List.Perm.refl _
  | cons x xs ih => exact (insertK_perm key x (sortK key xs)).trans (ih.cons x)

theorem mem_sortK (key : α → Int) (a : α) (l : List α) :
    a ∈ sortK key l ↔ a ∈ l :=
  (sortK_perm key l).mem_iff

theorem length_sortK (key : α → Int) (l : List α) :
    (sortK key l).length = l.length :=
  (sortK_perm key l).length_eq

/-! ## Occurrence positions -/

theorem positionsFrom_shift (d : String) (n : Nat) (l : List String) :
    positionsFrom d (n + 1) l = (positionsFrom d n l).map (· + 1) := by
  induction l generalizing n with
  | nil => simp [positionsFrom]
  | cons x xs ih =>
    simp only [positionsFrom]
    split
    · simp [ih]
    · simp [ih]

theorem positionsOf_cons (x : String) (xs : List String) (d : String) :
    positionsOf (x :: xs) d =
      (if x = d then [0] else []) ++ (positionsOf xs d).map (· + 1) := by
  unfold positionsOf
  simp only [positionsFrom]
  rw [positionsFrom_shift]
  split <;> simp

theorem mem_positionsOf (l : List String) (d : String) (p : Nat) :
    p ∈ positionsOf l d ↔ l.get? p = some d := by
  induction l generalizing p with
  | nil => simp [positionsOf, positionsFrom]
  | cons x xs ih =>
    rw [positionsOf_cons]
    rcases p with _ | p
    · simp only [List.mem_append, List.mem_map, List.get?]
      constructor
      · intro hm
        rcases hm with hm | hm
        · split at hm
          · rename_i hx; rw [hx]
          · simp at hm
        · rcases hm with ⟨q, _, hq⟩
          omega
      · intro hc
        have hx : x = d := Option.some.inj hc
        left
        simp [hx]
    · simp only [List.mem_append, List.mem_map, List.get?]
      constructor
      · intro hm
        rcases hm with hm | hm
        · split at hm <;> simp at hm
        · rcases hm with ⟨q, hq, hqe⟩
          have hqp : q = p := by omega
          rw [← hqp]
          exact (ih q).mp hq
      · intro hg
        exact Or.inr ⟨p, (ih p).mpr hg, rfl⟩

theorem positionsOf_lt (l : List String) (d : String) (p : Nat)
    (h : p ∈ positionsOf l d) : p < l.length := by
  have hg := (mem_positionsOf l d p).mp h
  rcases List.get?_eq_some.mp hg with ⟨hlt, _⟩
  exact hlt

theorem positionsOf_nil_of_not_mem (l : List String) (d : String) (h : d ∉ l) :
    positionsOf l d = [] := by
  by_contra hne
  rcases List.exists_mem_of_ne_nil _ hne with ⟨p, hp⟩
  exact h (List.get?_mem ((mem_positionsOf l d p).mp hp))

theorem positionsOf_singleton (l : List String) (d : String) (j : Nat)
    (hN : l.Nodup) (h : l.get? j = some d) : positionsOf l d = [j] := by
  induction l generalizing j with
  | nil => simp at h
  | cons x xs ih =>
    rcases List.nodup_cons.mp hN with ⟨hx, hxs⟩
    rw [positionsOf_cons]
    rcases j with _ | j
    · have hxd : x = d := by simpa using h
      have hnm : d ∉ xs := by
        intro hc
        exact hx (hxd ▸ hc)
      rw [if_pos hxd, positionsOf_nil_of_not_mem xs d hnm]
      rfl
    · have hgx : xs.get? j = some d := by simpa using h
      have hdm : d ∈ xs := List.get?_mem hgx
      have hxd : ¬ (x = d) := by
        intro hh
        exact hx (hh ▸ hdm)
      rw [if_neg hxd, ih j hxs hgx]
      rfl

theorem lastIdxOf_nodup (l : List String) (d : String) (j : Nat)
    (hN : l.Nodup) (h : l.get? j = some d) : lastIdxOf l d = some j := by
  unfold lastIdxOf
  rw [positionsOf_singleton l d j hN h]
  rfl

theorem lastIdxOf_isSome (l : List String) (d : String) (h : d ∈ l) :
    (lastIdxOf l d).isSome := by
  rcases List.get?_of_mem h with ⟨j, hj⟩
  have hm : j ∈ positionsOf l d := (mem_positionsOf l d j).mpr hj
  unfold lastIdxOf
  cases hp : (positionsOf l d).getLast?
  · rw [List.getLast?_eq_none_iff] at hp
    rw [hp] at hm
    simp at hm
  · simp

/-! ## Distinct keys -/

theorem distinctKeys_aux_mem (l : List String) (acc : List String) (a : String) :
    a ∈ l.foldl (fun acc x => if x ∈ acc then acc else acc ++ [x]) acc ↔
      a ∈ acc ∨ a ∈ l := by
  induction l generalizing acc with
  | nil => simp
  | cons x xs ih =>
    simp only [List.foldl_cons]
    rw [ih]
    constructor
    · intro h
      rcases h with h | h
      · split at h
        · exact Or.inl h
        · rcases List.mem_append.mp h with h | h
          · exact Or.inl h
          · simp only [List.mem_singleton] at h
            exact Or.inr (h ▸ List.mem_cons_self _ _)
      · exact Or.inr (List.mem_cons_of_mem x h)
    · intro h
      rcases h with h | h
      · split
        · exact Or.inl h
        · exact Or.inl (List.mem_append.mpr (Or.inl h))
      · rcases List.mem_cons.mp h with h | h
        · subst h
          split
          · exact Or.inl (by assumption)
          · exact Or.inl (List.mem_append.mpr (Or.inr (by simp)))
        · exact Or.inr h

theorem mem_distinctKeys (l : List String) (a : String) :
    a ∈ distinctKeys l ↔ a ∈ l := by
  unfold distinctKeys
  rw [distinctKeys_aux_mem]
  simp

theorem distinctKeys_aux_nodup (l : List String) (acc : List String)
    (hacc : acc.Nodup) :
    (l.foldl (fun acc x => if x ∈ acc then acc else acc ++ [x]) acc).Nodup := by
  induction l generalizing acc with
  | nil => simpa
  | cons x xs ih =>
    simp only [List.foldl_cons]
    apply ih
    split
    · exact hacc
    · rename_i hx
      rw [List.nodup_append]
      refine ⟨hacc, List.nodup_singleton x, ?_⟩
      intro a ha hb
      simp only [List.mem_singleton] at hb
      subst hb
      exact hx ha

theorem nodup_distinctKeys (l : List String) : (distinctKeys l).Nodup :=
  distinctKeys_aux_nodup l [] List.nodup_nil

/-! ## The dedup rename fold -/

theorem positionsFrom_ge (d : String) (n : Nat) (l : List String) :
    ∀ p ∈ positionsFrom d n l, n ≤ p := by
  induction l generalizing n with
  | nil => simp [positionsFrom]
  | cons x xs ih =>
    intro p hp
    simp only [positionsFrom] at hp
    split at hp
    · rcases List.mem_cons.mp hp with h | h
      · omega
      · have := ih (n + 1) p h
        omega
    · have := ih (n + 1) p hp
      omega

theorem positionsFrom_nodup (d : String) (n : Nat) (l : List String) :
    (positionsFrom d n l).Nodup := by
  induction l generalizing n with
  | nil => simp [positionsFrom]
  | cons x xs ih =>
    simp only [positionsFrom]
    split
    · refine List.nodup_cons.mpr ⟨?_, ih (n + 1)⟩
      intro hc
      have := positionsFrom_ge d (n + 1) xs n hc
      omega
    · exact ih (n + 1)

theorem positionsOf_nodup (l : List String) (d : String) :
    (positionsOf l d).Nodup :=
  positionsFrom_nodup d 0 l

theorem positionsOf_length (l : List String) (d : String) :
    (positionsOf l d).length = l.count d := by
  induction l with
  | nil => simp [positionsOf, positionsFrom]
  | cons x xs ih =>
    rw [positionsOf_cons, List.count_cons]
    by_cases hx : x = d
    · rw [if_pos hx, List.length_append, List.length_map, ih, if_pos (by simp [hx])]
      simp only [List.length_singleton]
      omega
    · rw [if_neg hx, List.length_append, List.length_map, ih,
        if_neg (by simpa using hx)]
      simp only [List.length_nil]
      omega

/-- A fold of `List.set` at positions avoiding `p` leaves `get? p` alone. -/
theorem setFold_get?_not_mem (f : Nat → String) :
    ∀ (l : List (Nat × Nat)) (acc : List String) (p : Nat),
      p ∉ l.map Prod.snd →
      ((l.foldl (fun a kp => a.set kp.2 (f kp.1)) acc).get? p = acc.get? p) := by
  intro l
  induction l with
  | nil => intro acc p _; rfl
  | cons kp tl ih =>
    intro acc p hp
    simp only [List.map_cons, List.mem_cons] at hp
    push_neg at hp
    simp only [List.foldl_cons]
    rw [ih _ p hp.2]
    exact List.get?_set_ne _ _ (fun h => hp.1 h.symm)

/-- A fold of `List.set` at pairwise-distinct positions writes `f k` at the
position paired with `k`. -/
theorem setFold_get?_mem (f : Nat → String) :
    ∀ (l : List (Nat × Nat)) (acc : List String) (k p : Nat),
      (l.map Prod.snd).Nodup → (k, p) ∈ l → p < acc.length →
      ((l.foldl (fun a kp => a.set kp.2 (f kp.1)) acc).get? p = some (f k)) := by
  intro l
  induction l with
  | nil => intro acc k p _ h _; simp at h
  | cons kp tl ih =>
    intro acc k p hnd hm hlt
    simp only [List.map_cons, List.nodup_cons] at hnd
    simp only [List.foldl_cons]
    rcases List.mem_cons.mp hm with h | h
    · have hk : kp = (k, p) := h.symm
      subst hk
      rw [setFold_get?_not_mem f tl _ p hnd.1]
      exact List.get?_set_eq_of_lt _ hlt
    · apply ih _ k p hnd.2 h
      rw [List.length_set]
      exact hlt

theorem length_setFold (f : Nat → String) (l : List (Nat × Nat)) (acc : List String) :
    (l.foldl (fun a kp => a.set kp.2 (f kp.1)) acc).length = acc.length := by
  induction l generalizing acc with
  | nil => rfl
  | cons kp tl ih =>
    simp only [List.foldl_cons]
    rw [ih]
    exact List.length_set ..

theorem length_renameOne (orig acc : List String) (d : String) :
    (renameOne orig acc d).length = acc.length := by
  unfold renameOne
  exact length_setFold (fun k => d ++ "-" ++ toString (k + 1)) _ _

theorem renameOne_get?_not_pos (orig acc : List String) (d : String) (p : Nat)
    (hp : p ∉ ((positionsOf orig d).drop 1)) :
    (renameOne orig acc d).get? p = acc.get? p := by
  unfold renameOne
  exact setFold_get?_not_mem (fun k => d ++ "-" ++ toString (k + 1)) _ acc p
    (by rw [List.enum_map_snd]; exact hp)

theorem renameOne_get?_pos (orig acc : List String) (d : String) (k p : Nat)
    (hk : ((positionsOf orig d).drop 1).get? k = some p) (hlt : p < acc.length) :
    (renameOne orig acc d).get? p = some (d ++ "-" ++ toString (k + 1)) := by
  unfold renameOne
  exact setFold_get?_mem (fun k => d ++ "-" ++ toString (k + 1)) _ acc k p
    (by rw [List.enum_map_snd]
        exact List.Nodup.sublist (List.drop_sublist 1 _) (positionsOf_nodup orig d))
    (List.mem_enum_iff_get?.mpr hk) hlt

theorem positionsOf_disjoint (l : List String) (d d' : String) (p : Nat)
    (hne : d' ≠ d) (hp : p ∈ positionsOf l d) : p ∉ positionsOf l d' := by
  intro hc
  have h1 := (mem_positionsOf l d p).mp hp
  have h2 := (mem_positionsOf l d' p).mp hc
  rw [h1] at h2
  exact hne (Option.some.inj h2).symm

theorem foldl_renameOne_untouched (orig : List String) (p : Nat) :
    ∀ (ds : List String) (acc : List String),
      (∀ d' ∈ ds, p ∉ (positionsOf orig d').drop 1) →
      ((ds.foldl (renameOne orig) acc).get? p = acc.get? p) := by
  intro ds
  induction ds with
  | nil => intro acc _; rfl
  | cons d0 tl ih =>
    intro acc h
    simp only [List.foldl_cons]
    rw [ih _ (fun d' hd' => h d' (List.mem_cons_of_mem d0 hd'))]
    exact renameOne_get?_not_pos orig acc d0 p (h d0 (List.mem_cons_self d0 tl))

theorem length_foldl_renameOne (orig : List String) :
    ∀ (ds : List String) (acc : List String),
      (ds.foldl (renameOne orig) acc).length = acc.length := by
  intro ds
  induction ds with
  | nil => intro acc; rfl
  | cons d0 tl ih =>
    intro acc
    simp only [List.foldl_cons]
    rw [ih, length_renameOne]

/-- Per-position characterization of the spec-style rename fold over any
duplicate-free key list holding exactly the duplicated ids: the `k`-th
occurrence of `d` (position `p`) keeps `d` when `k = 0` and becomes
`"{d}-{k}"` otherwise. -/
theorem foldl_renameOne_get?_occ (ids dups : List String)
    (hnodups : dups.Nodup)
    (hmem : ∀ d', d' ∈ dups ↔ (d' ∈ distinctKeys ids ∧ 1 < ids.count d'))
    (d : String) (k p : Nat)
    (hk : (positionsOf ids d).get? k = some p) :
    (dups.foldl (renameOne ids) ids).get? p =
      some (if k = 0 then d else d ++ "-" ++ toString k) := by
  have hpmem : p ∈ positionsOf ids d := List.get?_mem hk
  have hpg : ids.get? p = some d := (mem_positionsOf ids d p).mp hpmem
  have hplt : p < ids.length := positionsOf_lt ids d p hpmem
  have htouched : ∀ d' ∈ dups, d' ≠ d → p ∉ (positionsOf ids d').drop 1 := by
    intro d' _ hne hc
    exact positionsOf_disjoint ids d d' p hne hpmem
      (List.mem_of_mem_drop hc)
  by_cases hdm : d ∈ dups
  · rcases List.append_of_mem hdm with ⟨s, t, hst⟩
    have hnds : d ∉ s ∧ d ∉ t := by
      rw [hst] at hnodups
      rcases List.nodup_append.mp hnodups with ⟨_, hdt, hdisj⟩
      constructor
      · intro hc
        exact hdisj hc (List.mem_cons_self d t)
      · intro hc
        exact (List.nodup_cons.mp hdt).1 hc
    show (dups.foldl (renameOne ids) ids).get? p = _
    rw [hst, List.foldl_append, List.foldl_cons]
    have hs : (s.foldl (renameOne ids) ids).get? p = ids.get? p :=
      foldl_renameOne_untouched ids p s ids
        (fun d' hd' => htouched d' (hst ▸ List.mem_append_left _ hd')
          (fun he => hnds.1 (he ▸ hd')))
    have hlen : (s.foldl (renameOne ids) ids).length = ids.length :=
      length_foldl_renameOne ids s ids
    rcases k with _ | k
    · -- first occurrence: p is the head of the position list, untouched
      have hhead : p ∉ (positionsOf ids d).drop 1 := by
        intro hc
        have hnd := positionsOf_nodup ids d
        rcases hpos : positionsOf ids d with _ | ⟨p0, rest⟩
        · rw [hpos] at hk; simp at hk
        · rw [hpos] at hk hc hnd
          simp only [List.get?] at hk
          have hp0 : p0 = p := Option.some.inj hk
          simp only [List.drop] at hc
          exact (List.nodup_cons.mp hnd).1 (hp0 ▸ hc)
      rw [foldl_renameOne_untouched ids p t _
        (fun d' hd' => htouched d' (hst ▸ List.mem_append_right _
          (List.mem_cons_of_mem d hd')) (fun he => hnds.2 (he ▸ hd')))]
      rw [renameOne_get?_not_pos ids _ d p hhead, hs, hpg]
      rfl
    · -- later occurrence: renamed by the step for d, untouched elsewhere
      have hdk : ((positionsOf ids d).drop 1).get? k = some p := by
        rw [List.get?_drop, Nat.add_comm]
        exact hk
      rw [foldl_renameOne_untouched ids p t _
        (fun d' hd' => htouched d' (hst ▸ List.mem_append_right _
          (List.mem_cons_of_mem d hd')) (fun he => hnds.2 (he ▸ hd')))]
      rw [renameOne_get?_pos ids _ d k p hdk (by rw [hlen]; exact hplt)]
      rfl
  · -- d is not a duplicate: every step leaves p alone
    have hcount1 : ids.count d ≤ 1 := by
      by_contra hc
      push_neg at hc
      exact hdm ((hmem d).mpr
        ⟨(mem_distinctKeys ids d).mpr (List.get?_mem hpg), hc⟩)
    have hk0 : k = 0 := by
      have hlen1 : (positionsOf ids d).length ≤ 1 := by
        rw [positionsOf_length]
        exact hcount1
      rcases List.get?_eq_some.mp hk with ⟨hklt, _⟩
      omega
    subst hk0
    show (dups.foldl (renameOne ids) ids).get? p = _
    rw [foldl_renameOne_untouched ids p dups ids
      (fun d' hd' => htouched d' hd' (fun he => hdm (he ▸ hd')))]
    rw [hpg]
    rfl

/-! # Claim C1 -/

/-- C1: the claim states that after the dedup pass no two parsed events share
an `objectId`, including ids synthesized by the renaming itself.  The code
violates this: on a document whose events carry ids `42`, `42`, `42-1`, the
second `42` is renamed to `42-1`, colliding with the existing `42-1`, and the
parsed events come out as `42`, `42-1`, `42-1` — a duplicate survives the
pass (the spec, and the code's own intent expressed in its dedup logic and
duplicate warning, require uniqueness). -/
theorem c1_dedup_leaves_duplicate :
    (extractEvents [rawEv42, rawEv42, rawEv421]).map (·.objectId) =
      ["42", "42-1", "42-1"] ∧
    ¬ ((extractEvents [rawEv42, rawEv42, rawEv421]).map (·.objectId)).Nodup := by
  constructor
  · decide
  · decide

/-! ## Lengths through the parse pipeline -/

theorem length_effIdsFrom (l : List RawEvent) :
    ∀ n, (effIdsFrom n l).length = l.length := by
  induction l with
  | nil => intro n; rfl
  | cons r rs ih =>
    intro n
    simp only [effIdsFrom, List.length_cons]
    rw [ih]

theorem length_renameLoop (d : String) :
    ∀ (ps : List Nat) (k : Nat) (st : List String × List (String × List Nat)),
      ((renameLoop d k ps st).1).length = st.1.length := by
  intro ps
  induction ps with
  | nil => intro k st; rfl
  | cons p rest ih =>
    intro k st
    simp only [renameLoop]
    rw [ih (k + 1) (st.1.set p (d ++ "-" ++ toString k),
      posMapSet st.2 (d ++ "-" ++ toString k) [p])]
    exact List.length_set ..

theorem length_foldl_dedupStep :
    ∀ (ks : List String) (st : List String × List (String × List Nat)),
      ((ks.foldl dedupStep st).1).length = st.1.length := by
  intro ks
  induction ks with
  | nil => intro st; rfl
  | cons d rest ih =>
    intro st
    simp only [List.foldl_cons]
    rw [ih (dedupStep st d)]
    simp only [dedupStep]
    exact length_renameLoop d _ 1 st

theorem length_dedupIds (ids : List String) :
    (dedupIds ids).length = ids.length :=
  length_foldl_dedupStep _ (ids, buildPosMap ids)

theorem length_extractEvents (raws : List RawEvent) :
    (extractEvents raws).length = raws.length := by
  unfold extractEvents
  rw [List.length_map, List.length_zip, length_dedupIds]
  unfold effIds
  rw [length_effIdsFrom, length_sortK]
  simp

/-! # Claim C3 -/

/-- C3 counterexample: the claim states that a document lacking the
`finding` element (or `request`/`events`) surfaces a typed error to the
caller and returns no node or edge collections.  In fact `extractTraceData`
catches the internal throw and returns a placeholder structure: the caller
receives a non-empty node list (one `error` node) and an (empty) edge list,
and no error escapes. -/
theorem c3_fallback_graph_returned :
    (extractTraceData docNoFinding).nodes =
      [{ id := "error", type := "http-request"
         label := "Error: No finding element found in XML" }] ∧
    (extractTraceData docNoFinding).nodes ≠ [] ∧
    (extractTraceData docNoFinding).edges = [] := by
  refine ⟨by decide, by decide, by decide⟩

/-- C3 amended: a missing `finding`, `request` or `events` element makes
`extractTraceData` return the `errorTraceData` placeholder (single error
node, no edges, empty events) with the corresponding message; the error is
caught internally and never surfaced to the caller. -/
theorem c3_error_is_caught_fallback (doc : XmlDoc) :
    (doc.finding = none →
      extractTraceData doc = errorTraceData "No finding element found in XML") ∧
    (∀ f, doc.finding = some f → f.request = none →
      extractTraceData doc = errorTraceData "No request element found in XML") ∧
    (∀ f, doc.finding = some f → f.request.isSome → f.events = none →
      extractTraceData doc = errorTraceData "No events element found in XML") := by
  refine ⟨?_, ?_, ?_⟩
  · intro h
    simp [extractTraceData, h]
  · intro f hf hr
    simp [extractTraceData, hf, hr]
  · intro f hf hrs he
    rcases Option.isSome_iff_exists.mp hrs with ⟨r, hr⟩
    simp [extractTraceData, hf, hr, he]

/-- C3 witness: the three missing-element documents hit their fallbacks. -/
theorem c3_error_is_caught_fallback_witness :
    extractTraceData docNoFinding =
      errorTraceData "No finding element found in XML" ∧
    extractTraceData docNoRequest =
      errorTraceData "No request element found in XML" ∧
    extractTraceData docNoEvents =
      errorTraceData "No events element found in XML" :=
  ⟨(c3_error_is_caught_fallback docNoFinding).1 rfl,
   (c3_error_is_caught_fallback docNoRequest).2.1 {} rfl rfl,
   (c3_error_is_caught_fallback docNoEvents).2.2 { request := some {} } rfl
     (by decide) rfl⟩

/-! # Claim C4 -/

/-- C4 counterexample: the claim states that on a failed decode every
content field falls back to the raw encoded text verbatim.  In fact a
tracked arg's `decodedValue` becomes the fixed string
`"Unable to decode content"`, and object/return content falls back to the
raw text only after HTML sanitising (`<` becomes `&lt;`). -/
theorem c4_decode_fallback_not_verbatim :
    atob rawArgBad.text = none ∧
    (extractArgs [rawArgBad]).map (·.decodedValue) =
      [some "Unable to decode content"] ∧
    (∀ a ∈ extractArgs [rawArgBad], a.decodedValue ≠ some a.encodedValue) ∧
    atob rawObjBad.text = none ∧
    (mkDataField rawObjBad).decoded = some "&lt;" ∧
    "&lt;" ≠ rawObjBad.text := by
  refine ⟨by decide, by decide, by decide, by decide, by decide, by decide⟩

/-- C4 amended: a decode failure never aborts the parse (every event element
yields a parsed event), a tracked arg whose payload fails to decode gets the
fixed string `"Unable to decode content"` as its `decodedValue`, and
object/return content that fails to decode gets the raw encoded text passed
through the HTML sanitiser (verbatim exactly when no sanitised character
occurs). -/
theorem c4_decode_fallback_behavior :
    (∀ raws : List RawEvent, (extractEvents raws).length = raws.length) ∧
    (∀ (l : List RawArg) (a : RawArg), a ∈ l → a.tracked = some "true" →
      atob a.text = none →
      mkArg a ∈ extractArgs l ∧
        (mkArg a).decodedValue = some "Unable to decode content") ∧
    (∀ d : RawData, d.text ≠ "" → atob d.text = none →
      (mkDataField d).decoded = some (escapeHtml d.text)) ∧
    (∀ (r : RawEvent) (id : String) (d : RawData), r.object = some d →
      (mkEvent id r).objectData = some (mkDataField d)) ∧
    (∀ (r : RawEvent) (id : String) (d : RawData), r.ret = some d →
      (mkEvent id r).returnData = some (mkDataField d)) := by
  refine ⟨length_extractEvents, ?_, ?_, ?_, ?_⟩
  · intro l a ha htr hat
    refine ⟨List.mem_map.mpr ⟨a, ha, rfl⟩, ?_⟩
    simp [mkArg, htr, hat]
  · intro d htext hat
    simp [mkDataField, decodeField, hat, htext]
  · intro r id d h
    simp [mkEvent, h]
  · intro r id d h
    simp [mkEvent, h]

/-- C4 witness: the undecodable arg and object payloads. -/
theorem c4_decode_fallback_behavior_witness :
    (rawArgBad ∈ [rawArgBad] ∧ rawArgBad.tracked = some "true" ∧
      atob rawArgBad.text = none ∧
      (mkArg rawArgBad).decodedValue = some "Unable to decode content") ∧
    (rawObjBad.text ≠ "" ∧ atob rawObjBad.text = none ∧
      (mkDataField rawObjBad).decoded = some (escapeHtml rawObjBad.text)) := by
  refine ⟨⟨by decide, by decide, by decide, ?_⟩, ⟨by decide, by decide, ?_⟩⟩
  · exact (c4_decode_fallback_behavior.2.1 [rawArgBad] rawArgBad (by decide)
      (by decide) (by decide)).2
  · exact c4_decode_fallback_behavior.2.2.1 rawObjBad (by decide) (by decide)

/-! ## Edge dedup and the repair scan -/

theorem dedupByKey_keys (es : List Edge) :
    ∀ seen : List String,
      ((dedupByKey es seen).map edgeKey).Nodup ∧
      ∀ k ∈ (dedupByKey es seen).map edgeKey, k ∉ seen := by
  induction es with
  | nil => intro seen; exact ⟨List.nodup_nil, by simp [dedupByKey]⟩
  | cons e es ih =>
    intro seen
    simp only [dedupByKey]
    split
    · exact ⟨(ih seen).1, (ih seen).2⟩
    · rename_i hnew
      rcases ih (edgeKey e :: seen) with ⟨ihN, ihS⟩
      simp only [List.map_cons]
      refine ⟨List.nodup_cons.mpr ⟨?_, ihN⟩, ?_⟩
      · intro hc
        exact ihS _ hc (List.mem_cons_self _ _)
      · intro k hk
        rcases List.mem_cons.mp hk with hk | hk
        · subst hk; exact hnew
        · intro hc
          exact ihS k hk (List.mem_cons_of_mem _ hc)

theorem nodup_dedupByKey (es : List Edge) (seen : List String) :
    (dedupByKey es seen).Nodup :=
  List.Nodup.of_map edgeKey (dedupByKey_keys es seen).1

theorem nodup_groupCollapse_edges (nodes : List GNode) (edges : List Edge) :
    ((groupCollapse nodes edges).2).Nodup := by
  unfold groupCollapse
  exact nodup_dedupByKey _ []

theorem mem_hackPass_of_mem (x : Edge) :
    ∀ (ev : List Event) (l : List Edge), x ∈ l → x ∈ hackPass ev l := by
  intro ev
  induction ev with
  | nil => intro l h; exact h
  | cons e es ih =>
    intro l h
    simp only [hackPass, List.foldl_cons]
    apply ih
    split
    · split
      · exact h
      · exact List.mem_append_left _ h
    · exact h

theorem hackPass_adds (ev : List Event) (l : List Edge) (e : Event)
    (he : e ∈ ev) (h951 : jsIncludes e.objectId "951" = true)
    (h853 : e.parentObjectIds.any (fun p => jsIncludes p "853") = true) :
    (⟨"853-group", "951-group"⟩ : Edge) ∈ hackPass ev l := by
  induction ev generalizing l with
  | nil => simp at he
  | cons e0 es ih =>
    simp only [hackPass, List.foldl_cons]
    rcases List.mem_cons.mp he with he0 | hes
    · subst he0
      rw [if_pos ⟨h951, h853⟩]
      show _ ∈ hackPass es _
      split
      · exact mem_hackPass_of_mem _ es _ (by assumption)
      · exact mem_hackPass_of_mem _ es _ (List.mem_append_right _ (by simp))
    · exact ih _ hes

/-! # Claim C6 -/

/-- C6 counterexample: the claim states that no `(source,target)` pair
appears twice in the edge list the Graph Builder returns.  `buildEdges`
performs no deduplication: an event listing the parent `route` twice yields
the pair `route → 5` twice in the returned list. -/
theorem c6_buildEdges_duplicate_pair :
    buildEdges [evC6] =
      [⟨"request", "route"⟩, ⟨"route", "5"⟩, ⟨"route", "5"⟩] ∧
    ¬ (buildEdges [evC6]).Nodup := by
  exact ⟨by decide, by decide⟩

/-- C6 amended: `buildEdges` itself returns edges without removing
duplicates; the duplicate `(source,target)` pairs are removed later, inside
the renderer's grouping pass, after which no pair appears twice (also after
the guarded 853/951 repair edge). -/
theorem c6_grouping_dedupes_edges (nodes : List GNode) (edges : List Edge) :
    ((groupSimilarNodes nodes edges).2).Nodup := by
  unfold groupSimilarNodes
  split
  · rename_i hcond
    rw [List.nodup_append]
    refine ⟨nodup_groupCollapse_edges nodes edges, List.nodup_singleton _, ?_⟩
    intro a ha hb
    simp only [List.mem_singleton] at hb
    subst hb
    have hany : (groupCollapse nodes edges).2.any
        (fun e => decide (e.source = "853-group" ∧ e.target = "951-group")) = true := by
      refine List.any_eq_true.mpr ⟨⟨"853-group", "951-group"⟩, ha, ?_⟩
      simp
    exact hcond.2.2 hany
  · exact nodup_groupCollapse_edges nodes edges

/-! # Claim C10 -/

/-- C10: whenever a parsed event's objectId contains `951` and one of its
parent ids contains `853`, `buildEdges` puts the edge
`853-group → 951-group` in its result without checking that such nodes
exist; concretely, for the single event `951` with parent `853` the returned
edge list contains the repair edge although neither endpoint is a node id.
The grouping pass, by contrast, appends this edge only when both group nodes
actually exist in its output. -/
theorem c10_hack_edge_added :
    (∀ (events : List Event) (e : Event), e ∈ events →
      jsIncludes e.objectId "951" = true →
      e.parentObjectIds.any (fun p => jsIncludes p "853") = true →
      (⟨"853-group", "951-group"⟩ : Edge) ∈ buildEdges events) ∧
    ((⟨"853-group", "951-group"⟩ : Edge) ∈ buildEdges [ev951] ∧
      ∀ n ∈ buildNodes sampleReq [ev951], n.id ≠ "853-group" ∧ n.id ≠ "951-group") ∧
    (∀ (nodes : List GNode) (edges : List Edge),
      (⟨"853-group", "951-group"⟩ : Edge) ∈ (groupSimilarNodes nodes edges).2 →
      (⟨"853-group", "951-group"⟩ : Edge) ∈ (groupCollapse nodes edges).2 ∨
        ((groupCollapse nodes edges).1.any (·.id = "853-group") ∧
          (groupCollapse nodes edges).1.any (·.id = "951-group"))) := by
  refine ⟨?_, ⟨by decide, by decide⟩, ?_⟩
  · intro events e he h951 h853
    unfold buildEdges
    exact hackPass_adds events _ e he h951 h853
  · intro nodes edges h
    unfold groupSimilarNodes at h
    split at h
    · rename_i hcond
      rcases List.mem_append.mp h with h | h
      · exact Or.inl h
      · exact Or.inr ⟨hcond.1, hcond.2.1⟩
    · exact Or.inl h

/-- C10 witness: the general membership applied to the concrete event. -/
theorem c10_hack_edge_added_witness :
    ev951 ∈ [ev951] ∧ jsIncludes ev951.objectId "951" = true ∧
    ev951.parentObjectIds.any (fun p => jsIncludes p "853") = true ∧
    (⟨"853-group", "951-group"⟩ : Edge) ∈ buildEdges [ev951] := by
  refine ⟨by decide, by decide, by decide, ?_⟩
  exact c10_hack_edge_added.1 [ev951] ev951 (by decide) (by decide) (by decide)

/-! ## Membership in buildEdges -/

theorem exists_prev_zip (l : List Event) :
    ∀ (p0 : String) (e : Event), e ∈ l →
      ∃ pv, (pv, e) ∈ (p0 :: l.map (·.objectId)).zip l := by
  induction l with
  | nil => intro p0 e he; simp at he
  | cons x xs ih =>
    intro p0 e he
    rcases List.mem_cons.mp he with he | he
    · subst he
      exact ⟨p0, by simp [List.zip_cons_cons]⟩
    · rcases ih x.objectId e he with ⟨pv, hm⟩
      refine ⟨pv, ?_⟩
      simp only [List.map_cons, List.zip_cons_cons]
      exact List.mem_cons_of_mem _ hm

theorem mem_buildEdges_base (events : List Event) :
    (⟨"request", "route"⟩ : Edge) ∈ buildEdges events := by
  unfold buildEdges
  exact mem_hackPass_of_mem _ events _ (List.mem_cons_self _ _)

theorem mem_buildEdges_first (events : List Event) (pv : String) (e : Event)
    (x : Edge)
    (hz : (pv, e) ∈ ("route" :: (sortK evTimeKey events).map (·.objectId)).zip
      (sortK evTimeKey events))
    (hx : x ∈ (contrib events (sortK evTimeKey events) (sourceNodesList events)
      pv e).1) :
    x ∈ buildEdges events := by
  unfold buildEdges
  apply mem_hackPass_of_mem _ events
  apply List.mem_cons_of_mem
  apply List.mem_append_left
  exact List.mem_flatMap.mpr ⟨_, List.mem_map.mpr ⟨(pv, e), hz, rfl⟩, hx⟩

theorem mem_buildEdges_pending (events : List Event) (pv : String) (e : Event)
    (pr : String × String)
    (hz : (pv, e) ∈ ("route" :: (sortK evTimeKey events).map (·.objectId)).zip
      (sortK evTimeKey events))
    (hx : pr ∈ (contrib events (sortK evTimeKey events) (sourceNodesList events)
      pv e).2) :
    (⟨pr.1, pr.2⟩ : Edge) ∈ buildEdges events := by
  unfold buildEdges
  apply mem_hackPass_of_mem _ events
  apply List.mem_cons_of_mem
  apply List.mem_append_right
  exact List.mem_map.mpr
    ⟨pr, List.mem_flatMap.mpr ⟨_, List.mem_map.mpr ⟨(pv, e), hz, rfl⟩, hx⟩, rfl⟩

/-- Every event that is a violation, parentless, or has a resolvable parent
receives an incoming contribution: an edge of the first pass or a recorded
second-pass pair, in both cases targeting the event. -/
theorem contrib_incoming (events sorted : List Event) (srcIds : List String)
    (prevId : String) (e : Event)
    (h : isViolationEv e = true ∨ e.parentObjectIds = [] ∨
      ∃ p ∈ e.parentObjectIds, parentResolves events e p = true) :
    (∃ x ∈ (contrib events sorted srcIds prevId e).1, x.target = e.objectId) ∨
    (∃ pr ∈ (contrib events sorted srcIds prevId e).2, pr.2 = e.objectId) := by
  unfold contrib
  by_cases hv : isViolationEv e = true
  · rw [if_pos hv]
    exact Or.inl ⟨_, List.mem_singleton.mpr rfl, rfl⟩
  · rw [if_neg hv]
    by_cases hp : e.parentObjectIds ≠ []
    · rw [if_pos hp]
      left
      have hres : ∃ p ∈ e.parentObjectIds, parentResolves events e p = true := by
        rcases h with h | h | h
        · exact absurd h hv
        · exact absurd h (by simpa using hp)
        · exact h
      rcases hres with ⟨p, hpm, hpr⟩
      unfold parentEdges
      cases hrc : redirectCond events e p with
      | some b =>
        refine ⟨⟨b ++ "-group", e.objectId⟩, ?_, rfl⟩
        exact List.mem_flatMap.mpr ⟨p, hpm, by rw [hrc]; simp⟩
      | none =>
        have hdis : p = "route" ∨ p = "request" ∨ p ∈ eventIds events := by
          unfold parentResolves at hpr
          rw [hrc] at hpr
          simpa using hpr
        refine ⟨⟨p, e.objectId⟩, ?_, rfl⟩
        refine List.mem_flatMap.mpr ⟨p, hpm, ?_⟩
        rw [hrc]
        simp only [if_pos hdis]
        simp
    · rw [if_neg hp]
      by_cases hs : isSourceEv e = true
      · rw [if_pos hs]
        exact Or.inl ⟨_, List.mem_singleton.mpr rfl, rfl⟩
      · rw [if_neg hs]
        by_cases hm : e.objectId ∈ missingIdEvents events
        · rw [if_pos hm]
          exact Or.inl ⟨⟨prevSearch events (docPos events e), e.objectId⟩,
            List.mem_cons_self _ _, rfl⟩
        · rw [if_neg hm]
          by_cases hsl : srcIds ≠ [] ∧ e.objectId ∉ srcIds
          · rw [if_pos hsl]
            exact Or.inr ⟨_, List.mem_singleton.mpr rfl, rfl⟩
          · rw [if_neg hsl]
            exact Or.inr ⟨_, List.mem_singleton.mpr rfl, rfl⟩

/-! # Claim C7 -/

/-- C7 counterexample: the claim states that every node except `request`
has an incoming edge, including events whose non-empty `parentObjectIds` all
fail to resolve.  An event whose only parent id `999` matches nothing gets
no edge at all: the built graph for it is just `request → route`, and the
event's node has no incoming edge. -/
theorem c7_unresolved_parents_orphan :
    eventNode evC7 ∈ buildNodes sampleReq [evC7] ∧
    (eventNode evC7).id ≠ "request" ∧
    buildEdges [evC7] = [⟨"request", "route"⟩] ∧
    ∀ e ∈ buildEdges [evC7], e.target ≠ (eventNode evC7).id := by
  refine ⟨by decide, by decide, by decide, by decide⟩

/-- C7 amended: after `buildEdges`, every node except `request` has at least
one incoming edge — except event nodes whose non-empty `parentObjectIds` all
fail to resolve (those may be left with no incoming edge).  Violations and
parentless events are always linked. -/
theorem c7_connectivity_resolvable (req : RequestInfo) (events : List Event) :
    ∀ n ∈ buildNodes req events, n.id ≠ "request" →
      (n.id = "route" ∨ ∃ e ∈ events, e.objectId = n.id ∧
        (isViolationEv e = true ∨ e.parentObjectIds = [] ∨
          ∃ p ∈ e.parentObjectIds, parentResolves events e p = true)) →
      ∃ ed ∈ buildEdges events, ed.target = n.id := by
  intro n _ _ hres
  rcases hres with hroute | ⟨e, he, hid, hcase⟩
  · exact ⟨⟨"request", "route"⟩, mem_buildEdges_base events, hroute.symm⟩
  · have hes : e ∈ sortK evTimeKey events := (mem_sortK evTimeKey e events).mpr he
    rcases exists_prev_zip (sortK evTimeKey events) "route" e hes with ⟨pv, hz⟩
    rcases contrib_incoming events (sortK evTimeKey events)
      (sourceNodesList events) pv e hcase with ⟨x, hx, ht⟩ | ⟨pr, hpr, ht⟩
    · exact ⟨x, mem_buildEdges_first events pv e x hz hx, by rw [ht, hid]⟩
    · exact ⟨⟨pr.1, pr.2⟩, mem_buildEdges_pending events pv e pr hz hpr,
        by rw [show (⟨pr.1, pr.2⟩ : Edge).target = pr.2 from rfl, ht, hid]⟩

/-- C7 witness: a parentless source event is linked (from `route`). -/
theorem c7_connectivity_resolvable_witness :
    (eventNode (mkEv "7" "Creation" []) ∈ buildNodes sampleReq [mkEv "7" "Creation" []] ∧
      (eventNode (mkEv "7" "Creation" [])).id ≠ "request") ∧
    ∃ ed ∈ buildEdges [mkEv "7" "Creation" []], ed.target = "7" := by
  refine ⟨⟨by decide, by decide⟩, ?_⟩
  exact c7_connectivity_resolvable sampleReq [mkEv "7" "Creation" []]
    (eventNode (mkEv "7" "Creation" [])) (by decide) (by decide)
    (Or.inr ⟨mkEv "7" "Creation" [], by decide, by decide, Or.inr (Or.inl (by decide))⟩)

/-! ## The corrective sweep -/

theorem length_correctiveStep (links : List Edge) (arr : List LNode) (i : Nat) :
    (correctiveStep links arr i).length = arr.length := by
  unfold correctiveStep
  cases arr.get? i with
  | none => rfl
  | some nd =>
    simp only
    split
    · rfl
    · split
      · split
        · exact List.length_set ..
        · rfl
      · rfl

theorem correctiveStep_get?_ne (links : List Edge) (arr : List LNode) (i j : Nat)
    (hij : j ≠ i) : (correctiveStep links arr i).get? j = arr.get? j := by
  unfold correctiveStep
  cases arr.get? i with
  | none => rfl
  | some nd =>
    simp only
    split
    · rfl
    · split
      · split
        · exact List.get?_set_ne _ _ (fun h => hij h.symm)
        · rfl
      · rfl

theorem correctiveStep_get?_id (links : List Edge) (arr : List LNode) (i j : Nat) :
    ((correctiveStep links arr i).get? j).map (·.id) = (arr.get? j).map (·.id) := by
  by_cases hij : j = i
  · subst hij
    unfold correctiveStep
    cases hg : arr.get? j with
    | none => rw [hg]
    | some nd =>
      rcases List.get?_eq_some.mp hg with ⟨hlt, _⟩
      simp only
      split
      · rw [hg]
      · split
        · split
          · rw [List.get?_set_eq_of_lt _ hlt]
            rfl
          · rw [hg]
        · rw [hg]
  · rw [correctiveStep_get?_ne links arr i j hij]

theorem correctiveStep_pos (links : List Edge) (arr : List LNode) (i : Nat)
    (hpos : ∀ j nd, arr.get? j = some nd → 0 < nd.y) :
    ∀ j nd, (correctiveStep links arr i).get? j = some nd → 0 < nd.y := by
  intro j nd hj
  by_cases hij : j = i
  · subst hij
    unfold correctiveStep at hj
    cases hg : arr.get? j with
    | none => rw [hg] at hj; exact hpos j nd hj
    | some n0 =>
      rcases List.get?_eq_some.mp hg with ⟨hlt, _⟩
      rw [hg] at hj
      simp only at hj
      split at hj
      · exact hpos j nd hj
      · split at hj
        · split at hj
          · rename_i hcond
            rw [List.get?_set_eq_of_lt _ hlt] at hj
            have hnd : nd = { n0 with y := maxParentY arr (parentsOf links n0.id) + 80 } :=
              (Option.some.inj hj).symm
            rw [hnd]
            have := hcond.1
            simp only
            omega
          · exact hpos j nd hj
        · exact hpos j nd hj
  · rw [correctiveStep_get?_ne links arr i j hij] at hj
    exact hpos j nd hj

theorem passUpTo_succ (links : List Edge) (nodes : List LNode) (m : Nat) :
    passUpTo links nodes (m + 1) =
      correctiveStep links (passUpTo links nodes m) m := by
  unfold passUpTo
  rw [List.range_succ, List.foldl_append]
  rfl

theorem passUpTo_get?_of_le (links : List Edge) (nodes : List LNode) :
    ∀ (m j : Nat), m ≤ j → (passUpTo links nodes m).get? j = nodes.get? j := by
  intro m
  induction m with
  | zero => intro j _; rfl
  | succ m ih =>
    intro j hj
    rw [passUpTo_succ, correctiveStep_get?_ne links _ m j (by omega)]
    exact ih j (by omega)

theorem passUpTo_get?_stable (links : List Edge) (nodes : List LNode) :
    ∀ (m j : Nat), j < m →
      (passUpTo links nodes m).get? j = (passUpTo links nodes (j + 1)).get? j := by
  intro m
  induction m with
  | zero => intro j hj; omega
  | succ m ih =>
    intro j hj
    by_cases hjm : j < m
    · rw [passUpTo_succ, correctiveStep_get?_ne links _ m j (by omega)]
      exact ih j hjm
    · have : j = m := by omega
      subst this
      rfl

theorem passUpTo_get?_id (links : List Edge) (nodes : List LNode) :
    ∀ (m j : Nat),
      ((passUpTo links nodes m).get? j).map (·.id) = (nodes.get? j).map (·.id) := by
  intro m
  induction m with
  | zero => intro j; rfl
  | succ m ih =>
    intro j
    rw [passUpTo_succ, correctiveStep_get?_id]
    exact ih j

theorem passUpTo_pos (links : List Edge) (nodes : List LNode)
    (hpos : ∀ n ∈ nodes, 0 < n.y) :
    ∀ (m j : Nat) (nd : LNode), (passUpTo links nodes m).get? j = some nd → 0 < nd.y := by
  intro m
  induction m with
  | zero => intro j nd h; exact hpos nd (List.get?_mem h)
  | succ m ih =>
    intro j nd h
    rw [passUpTo_succ] at h
    exact correctiveStep_pos links _ m (fun j' nd' h' => ih j' nd' h') j nd h

theorem find?_id_of_nodup (l : List LNode) :
    ∀ (i : Nat) (v : LNode), (l.map (·.id)).Nodup → l.get? i = some v →
      l.find? (fun n => n.id = v.id) = some v := by
  induction l with
  | nil => intro i v _ h; simp at h
  | cons x xs ih =>
    intro i v hN hg
    have hN' : (x.id :: xs.map (·.id)).Nodup := by simpa using hN
    rcases List.nodup_cons.mp hN' with ⟨hx, hxs⟩
    rcases i with _ | i
    · have hxv : x = v := by simpa using hg
      subst hxv
      rw [List.find?_cons_of_pos _ (by simp)]
    · have hgx : xs.get? i = some v := by simpa using hg
      have hvm : v.id ∈ xs.map (·.id) :=
        List.mem_map.mpr ⟨v, List.get?_mem hgx, rfl⟩
      have hne : ¬ (x.id = v.id) := fun h => hx (h ▸ hvm)
      rw [List.find?_cons_of_neg _ (by simpa using hne)]
      exact ih i v hxs hgx

theorem maxParentY_mono (arr : List LNode) :
    ∀ (ps : List String) (a b : Int), a ≤ b →
      a ≤ ps.foldl
        (fun acc pid =>
          match arr.find? (·.id = pid) with
          | some pn => if acc < pn.y then pn.y else acc
          | none => acc) b := by
  intro ps
  induction ps with
  | nil => intro a b h; exact h
  | cons q qs ih =>
    intro a b h
    simp only [List.foldl_cons]
    apply ih
    cases arr.find? (·.id = q) with
    | none => exact h
    | some pn =>
      simp only
      split <;> omega

theorem maxParentY_ge_aux (arr : List LNode) :
    ∀ (ps : List String) (acc : Int) (pid : String) (pn : LNode),
      pid ∈ ps → arr.find? (·.id = pid) = some pn →
      pn.y ≤ ps.foldl
        (fun acc pid =>
          match arr.find? (·.id = pid) with
          | some pn => if acc < pn.y then pn.y else acc
          | none => acc) acc := by
  intro ps
  induction ps with
  | nil => intro acc pid pn hm _; simp at hm
  | cons q qs ih =>
    intro acc pid pn hm hf
    simp only [List.foldl_cons]
    rcases List.mem_cons.mp hm with h | h
    · subst h
      rw [hf]
      simp only
      apply maxParentY_mono
      split <;> omega
    · exact ih _ pid pn h hf

theorem maxParentY_ge (arr : List LNode) (ps : List String) (pid : String)
    (pn : LNode) (hm : pid ∈ ps) (hf : arr.find? (·.id = pid) = some pn) :
    pn.y ≤ maxParentY arr ps :=
  maxParentY_ge_aux arr ps 0 pid pn hm hf

theorem mem_parentsOf (links : List Edge) (id s : String) :
    s ∈ parentsOf links id ↔ ∃ e ∈ links, e.target = id ∧ e.source = s := by
  unfold parentsOf
  simp only [List.mem_map, List.mem_filter]
  constructor
  · rintro ⟨e, ⟨he, ht⟩, hs⟩
    exact ⟨e, he, by simpa using ht, hs⟩
  · rintro ⟨e, he, ht, hs⟩
    exact ⟨e, ⟨he, by simpa using ht⟩, hs⟩

theorem length_passUpTo (links : List Edge) (nodes : List LNode) :
    ∀ m, (passUpTo links nodes m).length = nodes.length := by
  intro m
  induction m with
  | zero => rfl
  | succ m ih => rw [passUpTo_succ, length_correctiveStep, ih]

theorem passUpTo_map_id (links : List Edge) (nodes : List LNode) (m : Nat) :
    (passUpTo links nodes m).map (·.id) = nodes.map (·.id) := by
  apply List.ext
  intro n
  rw [List.get?_map, List.get?_map, passUpTo_get?_id]

theorem correctivePass_eq_passUpTo (nodes : List LNode) (links : List Edge) :
    correctivePass nodes links = passUpTo links nodes nodes.length := rfl

/-- The y-lookup after the pass, for a node at a known index, under unique
ids. -/
theorem yOf_passUpTo (links : List Edge) (nodes : List LNode) (m i : Nat)
    (v : LNode) (hN : (nodes.map (·.id)).Nodup)
    (hv : (passUpTo links nodes m).get? i = some v) :
    yOf (passUpTo links nodes m) v.id = v.y := by
  unfold yOf
  rw [find?_id_of_nodup (passUpTo links nodes m) i v
    (by rw [passUpTo_map_id]; exact hN) hv]

/-! # Claim C9 -/

/-- C9 counterexample: the claim states that after the corrective pass every
edge `(p → c)` satisfies `y(c) ≥ y(p)`.  The pass is a single in-order
sweep: here the child `3` (processed first, while its parent `2` still sits
at `y = 100`) is left at `y = 200`, after which `2` is pushed to `1080` by
its own parent `1` — the edge `2 → 3` ends with the parent below the
child. -/
theorem c9_monotonicity_fails_reordered :
    (⟨"2", "3"⟩ : Edge) ∈ cLinks ∧
    correctivePass cNodes cLinks = [⟨"3", 200⟩, ⟨"2", 1080⟩, ⟨"1", 1000⟩] ∧
    yOf (correctivePass cNodes cLinks) "3" < yOf (correctivePass cNodes cLinks) "2" := by
  refine ⟨by decide, by decide, by decide⟩

/-- C9 amended: the corrective pass processes nodes in array order, pushing
a node (other than `request`/`route`) with parents to
`maxParentY + 80` whenever `maxParentY > 0` and the node sits at or above
`maxParentY + 50` (second conjunct, the push rule as the claim states it).
The resulting `y(c) ≥ y(p)` monotonicity is guaranteed for an edge whose
source precedes its target in the node array (first conjunct, given unique
ids and positive positions); an edge whose parent is processed after its
child can be left inverted. -/
theorem c9_corrective_pass_order (nodes : List LNode) (links : List Edge)
    (hN : (nodes.map (·.id)).Nodup)
    (hpos : ∀ n ∈ nodes, 0 < n.y) :
    (∀ (i j : Nat) (np nc : LNode) (e : Edge), i < j →
      nodes.get? i = some np → nodes.get? j = some nc →
      e ∈ links → e.source = np.id → e.target = nc.id →
      nc.id ≠ "request" → nc.id ≠ "route" →
      yOf (correctivePass nodes links) np.id ≤
        yOf (correctivePass nodes links) nc.id) ∧
    (∀ (arr : List LNode) (i : Nat) (nd : LNode), arr.get? i = some nd →
      nd.id ≠ "request" → nd.id ≠ "route" →
      parentsOf links nd.id ≠ [] →
      0 < maxParentY arr (parentsOf links nd.id) →
      nd.y ≤ maxParentY arr (parentsOf links nd.id) + 50 →
      (correctiveStep links arr i).get? i =
        some { nd with y := maxParentY arr (parentsOf links nd.id) + 80 }) := by
  constructor
  · intro i j np nc e hij hgi hgj he hs ht hreq hroute
    have hjlt : j < nodes.length := by
      rcases List.get?_eq_some.mp hgj with ⟨h, _⟩
      exact h
    have hilt : i < nodes.length := by omega
    rw [correctivePass_eq_passUpTo]
    -- the value of the source node is final once index `i` is processed
    have hAi : (passUpTo links nodes j).get? i = (passUpTo links nodes (i + 1)).get? i :=
      passUpTo_get?_stable links nodes j i hij
    have hfinali : (passUpTo links nodes nodes.length).get? i =
        (passUpTo links nodes (i + 1)).get? i :=
      passUpTo_get?_stable links nodes nodes.length i hilt
    have hidi : ((passUpTo links nodes j).get? i).map (·.id) = some np.id := by
      rw [passUpTo_get?_id, hgi]
      rfl
    obtain ⟨npA, hnpA, hnpAid⟩ :
        ∃ v, (passUpTo links nodes j).get? i = some v ∧ v.id = np.id := by
      cases hq : (passUpTo links nodes j).get? i with
      | none => rw [hq] at hidi; simp at hidi
      | some v => rw [hq] at hidi; exact ⟨v, rfl, by simpa using hidi⟩
    have hidj : ((passUpTo links nodes j).get? j).map (·.id) = some nc.id := by
      rw [passUpTo_get?_id, hgj]
      rfl
    obtain ⟨ncA, hncA, hncAid⟩ :
        ∃ v, (passUpTo links nodes j).get? j = some v ∧ v.id = nc.id := by
      cases hq : (passUpTo links nodes j).get? j with
      | none => rw [hq] at hidj; simp at hidj
      | some v => rw [hq] at hidj; exact ⟨v, rfl, by simpa using hidj⟩
    have hfin_i : (passUpTo links nodes nodes.length).get? i = some npA := by
      rw [hfinali, ← hAi, hnpA]
    have hyp : yOf (passUpTo links nodes nodes.length) np.id = npA.y := by
      rw [← hnpAid]
      exact yOf_passUpTo links nodes nodes.length i npA hN hfin_i
    have hmem : np.id ∈ parentsOf links ncA.id := by
      rw [hncAid]
      exact (mem_parentsOf links nc.id np.id).mpr ⟨e, he, ht, hs⟩
    have hfind : (passUpTo links nodes j).find? (fun n => n.id = np.id) = some npA := by
      have h0 := find?_id_of_nodup (passUpTo links nodes j) i npA
        (by rw [passUpTo_map_id]; exact hN) hnpA
      rw [hnpAid] at h0
      exact h0
    have hm_ge : npA.y ≤ maxParentY (passUpTo links nodes j) (parentsOf links ncA.id) :=
      maxParentY_ge _ _ np.id npA hmem hfind
    have hposA : 0 < npA.y := passUpTo_pos links nodes hpos j i npA hnpA
    have hstep : (passUpTo links nodes nodes.length).get? j =
        (correctiveStep links (passUpTo links nodes j) j).get? j := by
      rw [passUpTo_get?_stable links nodes nodes.length j hjlt, passUpTo_succ]
    have hskip : ¬ (ncA.id = "request" ∨ ncA.id = "route") := by
      rw [hncAid]
      tauto
    have hpsne : parentsOf links ncA.id ≠ [] := List.ne_nil_of_mem hmem
    have hjltA : j < (passUpTo links nodes j).length := by
      rw [length_passUpTo]
      exact hjlt
    by_cases hcond : 0 < maxParentY (passUpTo links nodes j) (parentsOf links ncA.id) ∧
        ncA.y ≤ maxParentY (passUpTo links nodes j) (parentsOf links ncA.id) + 50
    · have hval : (correctiveStep links (passUpTo links nodes j) j).get? j =
          some { ncA with
            y := maxParentY (passUpTo links nodes j) (parentsOf links ncA.id) + 80 } := by
        unfold correctiveStep
        rw [hncA]
        simp only
        rw [if_neg hskip, if_pos hpsne, if_pos hcond]
        exact List.get?_set_eq_of_lt _ hjltA
      have hfin_j : (passUpTo links nodes nodes.length).get? j =
          some { ncA with
            y := maxParentY (passUpTo links nodes j) (parentsOf links ncA.id) + 80 } := by
        rw [hstep, hval]
      have hyc : yOf (passUpTo links nodes nodes.length) nc.id =
          maxParentY (passUpTo links nodes j) (parentsOf links ncA.id) + 80 := by
        rw [← hncAid]
        exact yOf_passUpTo links nodes nodes.length j _ hN hfin_j
      rw [hyp, hyc]
      omega
    · have hval : (correctiveStep links (passUpTo links nodes j) j).get? j = some ncA := by
        unfold correctiveStep
        rw [hncA]
        simp only
        rw [if_neg hskip, if_pos hpsne, if_neg hcond]
        exact hncA
      have hfin_j : (passUpTo links nodes nodes.length).get? j = some ncA := by
        rw [hstep, hval]
      have hyc : yOf (passUpTo links nodes nodes.length) nc.id = ncA.y := by
        rw [← hncAid]
        exact yOf_passUpTo links nodes nodes.length j ncA hN hfin_j
      have h0m : 0 < maxParentY (passUpTo links nodes j) (parentsOf links ncA.id) := by
        omega
      have hgt : maxParentY (passUpTo links nodes j) (parentsOf links ncA.id) + 50 < ncA.y := by
        by_contra hle
        exact hcond ⟨h0m, by omega⟩
      rw [hyp, hyc]
      omega
  · intro arr i nd hg h1 h2 h3 h4 h5
    have hlt : i < arr.length := by
      rcases List.get?_eq_some.mp hg with ⟨h, _⟩
      exact h
    unfold correctiveStep
    rw [hg]
    simp only
    rw [if_neg (by tauto), if_pos h3, if_pos ⟨h4, h5⟩]
    exact List.get?_set_eq_of_lt _ hlt

/-! ## Grouping-pass support -/

theorem mem_jsKeyOrder (keys : List String) (x : String) :
    x ∈ jsKeyOrder keys ↔ x ∈ keys := by
  unfold jsKeyOrder
  rw [List.mem_append, mem_sortK]
  constructor
  · intro h
    rcases h with h | h
    · exact (List.mem_filter.mp h).1
    · exact (List.mem_filter.mp h).1
  · intro h
    by_cases hp : isArrayIndexKey x = true
    · exact Or.inl (List.mem_filter.mpr ⟨h, hp⟩)
    · exact Or.inr (List.mem_filter.mpr ⟨h, by simpa using hp⟩)

theorem nodup_jsKeyOrder (keys : List String) (h : keys.Nodup) :
    (jsKeyOrder keys).Nodup := by
  unfold jsKeyOrder
  rw [List.nodup_append]
  refine ⟨(sortK_perm _ _).nodup_iff.mpr (h.filter _), h.filter _, ?_⟩
  intro a ha hb
  rw [mem_sortK] at ha
  have h1 := (List.mem_filter.mp ha).2
  have h2 := (List.mem_filter.mp hb).2
  simp only [decide_eq_true_eq] at h2
  exact h2 h1

theorem nodup_qualifyingBaseIds (nodes : List GNode) :
    (qualifyingBaseIds nodes).Nodup :=
  (nodup_jsKeyOrder _ (nodup_distinctKeys _)).filter _

theorem mem_qualifyingBaseIds (nodes : List GNode) (b : String)
    (hlen : 1 < (othersOf nodes b).length) : b ∈ qualifyingBaseIds nodes := by
  have hne : othersOf nodes b ≠ [] := by
    intro h
    rw [h] at hlen
    simp at hlen
  rcases List.exists_mem_of_ne_nil _ hne with ⟨n, hn⟩
  have hnn := List.mem_filter.mp hn
  have hb : numericIdBase n.id = some b := by
    have := hnn.2
    simp only [decide_eq_true_eq] at this
    exact this.1
  unfold qualifyingBaseIds
  apply List.mem_filter.mpr
  refine ⟨?_, by simpa using hlen⟩
  unfold orderedBaseIds
  rw [mem_jsKeyOrder]
  unfold nodeBaseIds
  rw [mem_distinctKeys]
  exact List.mem_filterMap.mpr ⟨n, hnn.1, hb⟩

theorem countP_eq_one_of_nodup (l : List String) (x : String)
    (hN : l.Nodup) (hx : x ∈ l) :
    l.countP (fun y => y = x) = 1 := by
  induction l with
  | nil => simp at hx
  | cons a l ih =>
    rcases List.nodup_cons.mp hN with ⟨ha, hl⟩
    rcases List.mem_cons.mp hx with h | h
    · subst h
      have hz : List.countP (fun y => decide (y = x)) l = 0 :=
        List.countP_eq_zero.mpr (by
          intro y hy
          simp only [decide_eq_true_eq]
          intro he
          subst he
          exact ha hy)
      rw [List.countP_cons, hz, if_pos (by simp)]
    · have hne : ¬ (decide (a = x) = true) := by
        simp only [decide_eq_true_eq]
        intro he
        subst he
        exact ha h
      rw [List.countP_cons, ih hl h, if_neg hne]

theorem repNode_id (b : String) (oths : List GNode) :
    (repNode b oths).id = b ++ "-group" := by
  cases oths <;> rfl

theorem group_suffix_inj (b1 b2 : String)
    (h : b1 ++ "-group" = b2 ++ "-group") : b1 = b2 := by
  have hd : (b1 ++ "-group").data = (b2 ++ "-group").data := by rw [h]
  rw [String.data_append, String.data_append] at hd
  exact String.ext (List.append_cancel_right hd)

theorem numericIdBase_digits (s b : String) (h : numericIdBase s = some b) :
    ∀ c ∈ b.data, c.isDigit := by
  unfold numericIdBase at h
  split at h
  · exact absurd h (by simp)
  · intro c hc
    have hb : ∃ ds, b = String.mk ds ∧ ds = s.toList.takeWhile (·.isDigit) := by
      split at h
      · exact ⟨_, (Option.some.inj h).symm, rfl⟩
      · split at h
        · exact ⟨_, (Option.some.inj h).symm, rfl⟩
        · exact absurd h (by simp)
      · exact absurd h (by simp)
    rcases hb with ⟨ds, hbs, hds⟩
    rw [hbs] at hc
    exact List.mem_takeWhile_imp (hds ▸ hc)

theorem numericIdBase_chars (s b : String) (h : numericIdBase s = some b) :
    ∀ c ∈ s.data, c.isDigit ∨ c = '-' := by
  intro c hc
  unfold numericIdBase at h
  split at h
  · exact absurd h (by simp)
  · rename_i hne
    have hsplit : s.toList.takeWhile (·.isDigit) ++ s.toList.dropWhile (·.isDigit) =
        s.toList := List.takeWhile_append_dropWhile _ _
    have hcl : c ∈ s.toList := hc
    rw [← hsplit] at hcl
    rcases List.mem_append.mp hcl with hcl | hcl
    · exact Or.inl (List.mem_takeWhile_imp hcl)
    · split at h
      · rename_i hrest
        rw [hrest] at hcl
        simp at hcl
      · rename_i tl hrest
        rw [hrest] at hcl
        rcases List.mem_cons.mp hcl with hcl | hcl
        · exact Or.inr hcl
        · split at h
          · rename_i hcond
            exact Or.inl (List.all_eq_true.mp hcond.2 c hcl)
          · exact absurd h (by simp)
      · exact absurd h (by simp)

theorem gt_not_mem_group_suffix (b : String)
    (hb : ∀ c ∈ b.data, c.isDigit) : '>' ∉ (b ++ "-group").data := by
  rw [String.data_append]
  intro hc
  rcases List.mem_append.mp hc with hc | hc
  · have := hb _ hc
    simp at this
  · have : ('>' : Char) ∈ "-group".data := hc
    simp at this

theorem sep_split (r1 r2 : List Char) :
    ∀ (l1 l2 : List Char), '>' ∉ l1 → '>' ∉ l2 →
      l1 ++ '-' :: '>' :: r1 = l2 ++ '-' :: '>' :: r2 → l1 = l2 ∧ r1 = r2 := by
  intro l1
  induction l1 with
  | nil =>
    intro l2 _ hg2 h
    cases l2 with
    | nil =>
      refine ⟨rfl, ?_⟩
      simp only [List.nil_append, List.cons.injEq, true_and] at h
      simp only [h]
    | cons c l2' =>
      exfalso
      simp only [List.nil_append, List.cons_append] at h
      injection h with h1 h2
      cases l2' with
      | nil =>
        simp only [List.nil_append] at h2
        injection h2 with h3 _
        exact absurd h3 (by decide)
      | cons d l2'' =>
        simp only [List.cons_append] at h2
        injection h2 with h3 _
        apply hg2
        rw [h3]
        exact List.mem_cons_of_mem c (List.mem_cons_self d l2'')
  | cons a l1' ih =>
    intro l2 hg1 hg2 h
    cases l2 with
    | nil =>
      exfalso
      simp only [List.nil_append, List.cons_append] at h
      injection h with h1 h2
      cases l1' with
      | nil =>
        simp only [List.nil_append] at h2
        injection h2 with h3 _
        exact absurd h3 (by decide)
      | cons d l1'' =>
        simp only [List.cons_append] at h2
        injection h2 with h3 _
        apply hg1
        rw [← h3]
        exact List.mem_cons_of_mem a (List.mem_cons_self d l1'')
    | cons c l2' =>
      simp only [List.cons_append] at h
      injection h with h1 h2
      have hg1' : '>' ∉ l1' := fun hm => hg1 (List.mem_cons_of_mem a hm)
      have hg2' : '>' ∉ l2' := fun hm => hg2 (List.mem_cons_of_mem c hm)
      rcases ih l2' hg1' hg2' h2 with ⟨hl, hr⟩
      exact ⟨by rw [h1, hl], hr⟩

theorem edgeKey_inj (e1 e2 : Edge)
    (h1 : '>' ∉ e1.source.data) (h2 : '>' ∉ e2.source.data)
    (hk : edgeKey e1 = edgeKey e2) : e1 = e2 := by
  unfold edgeKey at hk
  have hdd : (e1.source ++ "->" ++ e1.target).data =
      (e2.source ++ "->" ++ e2.target).data := by rw [hk]
  rw [String.data_append, String.data_append, String.data_append,
    String.data_append] at hdd
  have hsep : e1.source.data ++ '-' :: '>' :: e1.target.data =
      e2.source.data ++ '-' :: '>' :: e2.target.data := by
    simpa using hdd
  rcases sep_split e1.target.data e2.target.data e1.source.data e2.source.data
    h1 h2 hsep with ⟨hs, ht⟩
  cases e1
  cases e2
  simp only [Edge.mk.injEq]
  exact ⟨String.ext hs, String.ext ht⟩

theorem mem_dedupByKey (e : Edge) :
    ∀ (l : List Edge) (seen : List String), e ∈ l →
      (∀ e' ∈ l, edgeKey e' = edgeKey e → e' = e) →
      edgeKey e ∉ seen → e ∈ dedupByKey l seen := by
  intro l
  induction l with
  | nil => intro seen he _ _; simp at he
  | cons e0 es ih =>
    intro seen he hinj hseen
    simp only [dedupByKey]
    by_cases he0 : e0 = e
    · subst he0
      rw [if_neg hseen]
      exact List.mem_cons_self _ _
    · have hes : e ∈ es := by
        rcases List.mem_cons.mp he with h | h
        · exact absurd h.symm he0
        · exact h
      have hkne : edgeKey e0 ≠ edgeKey e := by
        intro hk
        exact he0 (hinj e0 (List.mem_cons_self _ _) hk)
      split
      · exact ih seen hes (fun e' h' => hinj e' (List.mem_cons_of_mem _ h')) hseen
      · apply List.mem_cons_of_mem
        apply ih (edgeKey e0 :: seen) hes
          (fun e' h' => hinj e' (List.mem_cons_of_mem _ h'))
        intro hc
        rcases List.mem_cons.mp hc with hc | hc
        · exact hkne hc.symm
        · exact hseen hc

theorem qualifying_digits (nodes : List GNode) (b : String)
    (hb : b ∈ qualifyingBaseIds nodes) : ∀ c ∈ b.data, c.isDigit := by
  unfold qualifyingBaseIds at hb
  have h1 := (List.mem_filter.mp hb).1
  unfold orderedBaseIds at h1
  rw [mem_jsKeyOrder] at h1
  unfold nodeBaseIds at h1
  rw [mem_distinctKeys] at h1
  rcases List.mem_filterMap.mp h1 with ⟨n, _, hn⟩
  exact numericIdBase_digits n.id b hn

theorem allUpdates_gtFree (nodes : List GNode) (edges : List Edge)
    (hgt2 : ∀ e ∈ edges, '>' ∉ e.source.data ∧ '>' ∉ e.target.data) :
    ∀ u ∈ allUpdates nodes edges,
      (∀ ns, u.newS = some ns → '>' ∉ ns.data) ∧
      (∀ nt, u.newT = some nt → '>' ∉ nt.data) := by
  intro u hu
  unfold allUpdates at hu
  rcases List.mem_flatMap.mp hu with ⟨b, hbq, hu2⟩
  rcases List.mem_flatMap.mp hu2 with ⟨e, he, hu3⟩
  have hbg : '>' ∉ (b ++ "-group").data :=
    gt_not_mem_group_suffix b (qualifying_digits nodes b hbq)
  unfold edgeUpdates at hu3
  split at hu3
  · simp only [List.mem_singleton] at hu3
    subst hu3
    constructor
    · intro ns hns; simp at hns
    · intro nt hnt; simp at hnt
  · rcases List.mem_append.mp hu3 with hu4 | hu4
    · split at hu4
      · simp only [List.mem_singleton] at hu4
        subst hu4
        constructor
        · intro ns hns
          have : ns = b ++ "-group" := by simpa using hns.symm
          rw [this]
          exact hbg
        · intro nt hnt
          have : nt = e.target := by simpa using hnt.symm
          rw [this]
          exact (hgt2 e he).2
      · simp at hu4
    · split at hu4
      · simp only [List.mem_singleton] at hu4
        subst hu4
        constructor
        · intro ns hns
          have : ns = e.source := by simpa using hns.symm
          rw [this]
          exact (hgt2 e he).1
        · intro nt hnt
          have : nt = b ++ "-group" := by simpa using hnt.symm
          rw [this]
          exact hbg
      · simp at hu4

theorem updated_gtFree (nodes : List GNode) (edges : List Edge)
    (hgt1 : ∀ n ∈ nodes, '>' ∉ n.id.data)
    (hgt2 : ∀ e ∈ edges, '>' ∉ e.source.data ∧ '>' ∉ e.target.data) :
    ∀ x ∈ applyUpdates edges (allUpdates nodes edges) ++
        (qualifyingBaseIds nodes).flatMap (fun b =>
          (sourcesOf nodes b).map (fun s => (⟨s.id, b ++ "-group"⟩ : Edge))),
      '>' ∉ x.source.data ∧ '>' ∉ x.target.data := by
  intro x hx
  rcases List.mem_append.mp hx with hx | hx
  · unfold applyUpdates at hx
    rcases List.mem_map.mp hx with ⟨e, hef, hxe⟩
    have he : e ∈ edges := List.mem_of_mem_filter hef
    cases hfu : findUpdate (allUpdates nodes edges) e with
    | none =>
      rw [hfu] at hxe
      simp only at hxe
      rw [← hxe]
      exact hgt2 e he
    | some u =>
      have hu : u ∈ allUpdates nodes edges :=
        List.mem_of_find?_eq_some hfu
      have hfree := allUpdates_gtFree nodes edges hgt2 u hu
      rw [hfu] at hxe
      simp only at hxe
      cases hns : u.newS with
      | none =>
        rw [hns] at hxe
        simp only at hxe
        rw [← hxe]
        exact hgt2 e he
      | some ns =>
        cases hnt : u.newT with
        | none =>
          rw [hns, hnt] at hxe
          simp only at hxe
          rw [← hxe]
          exact hgt2 e he
        | some nt =>
          rw [hns, hnt] at hxe
          simp only at hxe
          split at hxe
          · rw [← hxe]
            exact ⟨hfree.1 ns hns, hfree.2 nt hnt⟩
          · rw [← hxe]
            exact hgt2 e he
  · rcases List.mem_flatMap.mp hx with ⟨b, hbq, hx2⟩
    rcases List.mem_map.mp hx2 with ⟨s, hs, hxe⟩
    rw [← hxe]
    refine ⟨hgt1 s (List.mem_of_mem_filter hs), ?_⟩
    exact gt_not_mem_group_suffix b (qualifying_digits nodes b hbq)

theorem groupCollapse_fst (nodes : List GNode) (edges : List Edge) :
    (groupCollapse nodes edges).1 =
      nodes.filter (fun n =>
        n.id ∉ (qualifyingBaseIds nodes).flatMap (fun b => (othersOf nodes b).map (·.id))) ++
      (qualifyingBaseIds nodes).map (fun b => repNode b (othersOf nodes b)) := rfl

theorem groupCollapse_snd (nodes : List GNode) (edges : List Edge) :
    (groupCollapse nodes edges).2 =
      dedupByKey
        (applyUpdates edges (allUpdates nodes edges) ++
          (qualifyingBaseIds nodes).flatMap (fun b =>
            (sourcesOf nodes b).map (fun s => (⟨s.id, b ++ "-group"⟩ : Edge)))) [] := rfl

theorem groupSimilarNodes_fst (nodes : List GNode) (edges : List Edge) :
    (groupSimilarNodes nodes edges).1 = (groupCollapse nodes edges).1 := by
  unfold groupSimilarNodes
  split <;> rfl

theorem mem_groupSimilarNodes_snd (nodes : List GNode) (edges : List Edge)
    (x : Edge) (h : x ∈ (groupCollapse nodes edges).2) :
    x ∈ (groupSimilarNodes nodes edges).2 := by
  unfold groupSimilarNodes
  split
  · exact List.mem_append_left _ h
  · exact h

theorem mem_groupCollapse_newEdge (nodes : List GNode) (edges : List Edge)
    (hgt1 : ∀ n ∈ nodes, '>' ∉ n.id.data)
    (hgt2 : ∀ e ∈ edges, '>' ∉ e.source.data ∧ '>' ∉ e.target.data)
    (b : String) (hq : b ∈ qualifyingBaseIds nodes)
    (s : GNode) (hs : s ∈ sourcesOf nodes b) :
    (⟨s.id, b ++ "-group"⟩ : Edge) ∈ (groupCollapse nodes edges).2 := by
  rw [groupCollapse_snd]
  have hmem : (⟨s.id, b ++ "-group"⟩ : Edge) ∈
      applyUpdates edges (allUpdates nodes edges) ++
        (qualifyingBaseIds nodes).flatMap (fun b =>
          (sourcesOf nodes b).map (fun s => (⟨s.id, b ++ "-group"⟩ : Edge))) :=
    List.mem_append_right _
      (List.mem_flatMap.mpr ⟨b, hq, List.mem_map.mpr ⟨s, hs, rfl⟩⟩)
  apply mem_dedupByKey _ _ [] hmem
  · intro e' he' hk
    exact edgeKey_inj e' ⟨s.id, b ++ "-group"⟩
      (updated_gtFree nodes edges hgt1 hgt2 e' he').1
      (hgt1 s (List.mem_of_mem_filter hs)) hk
  · simp

/-! # Claim C8 -/

/-- C8: in the grouping pass, every base id whose non-source members number
more than one is collapsed: its members are replaced by a single
representative node `"{baseId}-group"`, marked `isCollapsedGroup`,
inheriting `type`/`label`/`category` from the first member, with
`isTriggerEvent` true iff some member's is, carrying the members; one edge
from every source node of that base id to the group node is added; and the
replaced member ids no longer appear among the graph's nodes.  (Hypotheses:
node ids and edge endpoints contain no `>` — the dedup key separator — and
no node id already carries the group name.) -/
theorem c8_grouping_collapse (nodes : List GNode) (edges : List Edge)
    (b : String) (o0 : GNode)
    (hb : (othersOf nodes b).head? = some o0)
    (hlen : 1 < (othersOf nodes b).length)
    (hgt1 : ∀ n ∈ nodes, '>' ∉ n.id.data)
    (hgt2 : ∀ e ∈ edges, '>' ∉ e.source.data ∧ '>' ∉ e.target.data)
    (hgrp : ∀ n ∈ nodes, n.id ≠ b ++ "-group") :
    ((groupSimilarNodes nodes edges).1.countP (fun n => n.id = b ++ "-group") = 1) ∧
    (repNode b (othersOf nodes b) ∈ (groupSimilarNodes nodes edges).1 ∧
      (repNode b (othersOf nodes b)).id = b ++ "-group" ∧
      (repNode b (othersOf nodes b)).isCollapsedGroup = true ∧
      (repNode b (othersOf nodes b)).type = o0.type ∧
      (repNode b (othersOf nodes b)).label = o0.label ∧
      (repNode b (othersOf nodes b)).category = o0.category ∧
      (repNode b (othersOf nodes b)).isTriggerEvent =
        (othersOf nodes b).any (·.isTriggerEvent) ∧
      (repNode b (othersOf nodes b)).memberIds = (othersOf nodes b).map (·.id)) ∧
    (∀ m ∈ othersOf nodes b, ∀ n ∈ (groupSimilarNodes nodes edges).1, n.id ≠ m.id) ∧
    (∀ s ∈ sourcesOf nodes b,
      (⟨s.id, b ++ "-group"⟩ : Edge) ∈ (groupSimilarNodes nodes edges).2) := by
  have hq : b ∈ qualifyingBaseIds nodes := mem_qualifyingBaseIds nodes b hlen
  obtain ⟨oths, hoths⟩ : ∃ oths, othersOf nodes b = o0 :: oths := by
    cases ho : othersOf nodes b with
    | nil => rw [ho] at hb; simp at hb
    | cons y ys =>
      rw [ho] at hb
      exact ⟨ys, by simpa using (Option.some.inj (by simpa using hb)).symm ▸ rfl⟩
  refine ⟨?_, ⟨?_, ?_, ?_, ?_, ?_, ?_, ?_, ?_⟩, ?_, ?_⟩
  · -- exactly one node carries the group id
    rw [groupSimilarNodes_fst, groupCollapse_fst, List.countP_append]
    have hzero : (nodes.filter (fun n =>
        n.id ∉ (qualifyingBaseIds nodes).flatMap
          (fun b => (othersOf nodes b).map (·.id)))).countP
        (fun n => n.id = b ++ "-group") = 0 := by
      apply List.countP_eq_zero.mpr
      intro n hn
      simp only [decide_eq_true_eq]
      exact hgrp n (List.mem_of_mem_filter hn)
    rw [hzero, List.countP_map]
    have hcong : List.countP
        ((fun n => decide (n.id = b ++ "-group")) ∘
          (fun b' => repNode b' (othersOf nodes b')))
        (qualifyingBaseIds nodes) =
        List.countP (fun y => decide (y = b)) (qualifyingBaseIds nodes) := by
      apply List.countP_congr
      intro b' _
      simp only [Function.comp_apply, repNode_id, decide_eq_true_eq]
      constructor
      · exact fun h => group_suffix_inj b' b h
      · intro h; rw [h]
    rw [hcong, countP_eq_one_of_nodup _ b (nodup_qualifyingBaseIds nodes) hq]
  · rw [groupSimilarNodes_fst, groupCollapse_fst]
    exact List.mem_append_right _ (List.mem_map.mpr ⟨b, hq, rfl⟩)
  · exact repNode_id b _
  · rw [hoths]; rfl
  · rw [hoths]; rfl
  · rw [hoths]; rfl
  · rw [hoths]; rfl
  · rw [hoths]; rfl
  · rw [hoths]; rfl
  · -- member ids do not survive
    intro m hm n hn hid
    rw [groupSimilarNodes_fst, groupCollapse_fst] at hn
    rcases List.mem_append.mp hn with hn | hn
    · have hkeep := (List.mem_filter.mp hn).2
      simp only [decide_eq_true_eq] at hkeep
      apply hkeep
      exact List.mem_flatMap.mpr ⟨b, hq, by
        rw [hid]
        exact List.mem_map.mpr ⟨m, hm, rfl⟩⟩
    · rcases List.mem_map.mp hn with ⟨b', _, hrep⟩
      have hng : n.id = b' ++ "-group" := by rw [← hrep]; exact repNode_id b' _
      have hmb : numericIdBase m.id = some b := by
        have := (List.mem_filter.mp hm).2
        simp only [decide_eq_true_eq] at this
        exact this.1
      have hchars := numericIdBase_chars m.id b hmb
      have hgmem : ('g' : Char) ∈ m.id.data := by
        rw [← hid, hng, String.data_append]
        apply List.mem_append_right
        decide
      rcases hchars 'g' hgmem with h | h
      · simp at h
      · simp at h
  · intro s hs
    exact mem_groupSimilarNodes_snd nodes edges _
      (mem_groupCollapse_newEdge nodes edges hgt1 hgt2 b hq s hs)

/-- C8 witness: the spec's scenario — three non-source events with base id 7
plus one source collapse to `{source 7, 7-group}` with the edge
`7 → 7-group`, and the member ids vanish. -/
theorem c8_grouping_collapse_witness :
    (othersOf c8Nodes "7").head? = some (c8Other 1) ∧
    1 < (othersOf c8Nodes "7").length ∧
    groupSimilarNodes c8Nodes [] =
      ([c8Source, repNode "7" [c8Other 1, c8Other 2, c8Other 3]],
        [⟨"7", "7-group"⟩]) ∧
    repNode "7" (othersOf c8Nodes "7") ∈ (groupSimilarNodes c8Nodes []).1 ∧
    (∀ m ∈ othersOf c8Nodes "7", ∀ n ∈ (groupSimilarNodes c8Nodes []).1, n.id ≠ m.id) ∧
    (∀ s ∈ sourcesOf c8Nodes "7",
      (⟨s.id, "7" ++ "-group"⟩ : Edge) ∈ (groupSimilarNodes c8Nodes []).2) := by
  have h := c8_grouping_collapse c8Nodes [] "7" (c8Other 1) (by decide) (by decide)
    (by decide) (by decide) (by decide)
  exact ⟨by decide, by decide, by decide, h.2.1.1, h.2.2.1, h.2.2.2⟩

/-- C9 witness: with the parent stored before the child, the pushed child
ends below the parent, and the push rule fires as stated. -/
theorem c9_corrective_pass_order_witness :
    ((wNodes.map (·.id)).Nodup ∧ (∀ n ∈ wNodes, 0 < n.y)) ∧
    yOf (correctivePass wNodes wLinks) "1" ≤ yOf (correctivePass wNodes wLinks) "2" := by
  refine ⟨⟨by decide, by decide⟩, ?_⟩
  have h := (c9_corrective_pass_order wNodes wLinks (by decide) (by decide)).1
    0 1 ⟨"1", 100⟩ ⟨"2", 120⟩ ⟨"1", "2"⟩ (by decide) (by decide) (by decide)
    (by decide) (by decide) (by decide) (by decide) (by decide)
  exact h

/-! ## Locating events by document position (for claim C5) -/

theorem find?_unique_index (P : α → Bool) (l : List α) :
    ∀ (i : Nat) (e : α), l.get? i = some e →
      (∀ k x, l.get? k = some x → (P x = true ↔ k = i)) →
      l.find? P = some e := by
  induction l with
  | nil => intro i e hg _; simp at hg
  | cons y ys ih =>
    intro i e hg huniq
    cases i with
    | zero =>
      have hy : y = e := by simpa using hg
      have hp : P y = true := (huniq 0 y rfl).mpr rfl
      rw [List.find?_cons_of_pos ys hp, hy]
    | succ j =>
      have hp : ¬ P y = true := by
        intro hp
        exact Nat.succ_ne_zero j ((huniq 0 y rfl).mp hp).symm
      rw [List.find?_cons_of_neg ys hp]
      refine ih j e (by simpa using hg) ?_
      intro k x hk
      have hh := huniq (k + 1) x (by simpa using hk)
      constructor
      · intro hx
        exact Nat.succ_injective (hh.mp hx)
      · intro hx
        exact hh.mpr (by rw [hx])

theorem lastIdxOf_at_index (events : List Event) (hN : (eventIds events).Nodup)
    (i : Nat) (e : Event) (hg : events.get? i = some e) :
    lastIdxOf (eventIds events) e.objectId = some i := by
  apply lastIdxOf_nodup _ _ i hN
  unfold eventIds
  rw [List.get?_map, hg]
  rfl

/-- With distinct ids, `events.find(e => eventPositions[e.objectId] === i)`
is exactly the event at document index `i`. -/
theorem find_at_pos (events : List Event) (hN : (eventIds events).Nodup) (i : Nat) :
    events.find? (fun e => lastIdxOf (eventIds events) e.objectId = some i) =
      events.get? i := by
  cases hg : events.get? i with
  | some e =>
    apply find?_unique_index _ events i e hg
    intro k x hk
    constructor
    · intro hx
      have h1 : lastIdxOf (eventIds events) x.objectId = some i := of_decide_eq_true hx
      have h2 := lastIdxOf_at_index events hN k x hk
      rw [h1] at h2
      exact (Option.some_inj.mp h2).symm
    · intro hk'
      subst hk'
      rw [hk] at hg
      have hx : x = e := Option.some_inj.mp hg
      exact decide_eq_true (lastIdxOf_at_index events hN k x hk)
  | none =>
    rw [List.find?_eq_none]
    intro x hx hdx
    have h1 : lastIdxOf (eventIds events) x.objectId = some i := of_decide_eq_true hdx
    rcases List.mem_iff_get?.mp hx with ⟨k, hk⟩
    have h2 := lastIdxOf_at_index events hN k x hk
    rw [h1] at h2
    have hki : i = k := Option.some_inj.mp h2
    have hlen : events.length ≤ i := List.get?_eq_none.mp hg
    have hklt : k < events.length := by
      rcases List.get?_eq_some.mp hk with ⟨hlt, _⟩
      exact hlt
    omega

theorem prevSearch_succ (events : List Event) (hN : (eventIds events).Nodup)
    (m : Nat) (em : Event) (hg : events.get? m = some em) :
    prevSearch events (m + 1) = em.objectId := by
  unfold prevSearch
  rw [find_at_pos events hN m, hg]

/-- With distinct ids, the forward scan returns the id of the event at the
next document index, if any. -/
theorem nextSearch_eq (events : List Event) (hN : (eventIds events).Nodup)
    (pos : Nat) :
    nextSearch events pos = (events.get? (pos + 1)).map (·.objectId) := by
  unfold nextSearch
  cases hf : events.length - (pos + 1) with
  | zero =>
    have hlen : events.length ≤ pos + 1 := by omega
    rw [List.get?_eq_none.mpr hlen]
    rfl
  | succ k =>
    have hlt : pos + 1 < events.length := by omega
    unfold nextSearchAux
    rw [find_at_pos events hN (pos + 1)]
    cases hg : events.get? (pos + 1) with
    | some e => rfl
    | none => exact absurd (List.get?_eq_none.mp hg) (by omega)

theorem docPos_at_index (events : List Event) (hN : (eventIds events).Nodup)
    (i : Nat) (e : Event) (hg : events.get? i = some e) :
    docPos events e = i := by
  unfold docPos
  rw [lastIdxOf_at_index events hN i e hg]
  rfl

theorem get?_split (pre post : List Event) (t : Event) :
    (pre ++ t :: post).get? pre.length = some t := by
  rw [List.get?_append_right (le_refl _)]
  simp

theorem docPos_split (events pre post : List Event) (t : Event)
    (hsplit : events = pre ++ t :: post) (hN : (eventIds events).Nodup) :
    docPos events t = pre.length := by
  apply docPos_at_index events hN
  rw [hsplit]
  exact get?_split pre post t

/-- With distinct ids, the backwards scan started at an event's position
yields the id of the event before it (or `route` at position 0). -/
theorem prevSearch_split (events pre post : List Event) (t : Event)
    (hsplit : events = pre ++ t :: post) (hN : (eventIds events).Nodup) :
    prevSearch events pre.length = ((pre.getLast?).map (·.objectId)).getD "route" := by
  cases hpl : pre.getLast? with
  | none =>
    have hpre : pre = [] := List.getLast?_eq_none.mp hpl
    subst hpre
    rfl
  | some p =>
    have hne : pre ≠ [] := by
      intro h
      subst h
      simp at hpl
    have hlpos : 0 < pre.length := List.length_pos.mpr hne
    have hgp : events.get? (pre.length - 1) = some p := by
      rw [hsplit, List.get?_append (by omega)]
      rw [← List.getLast?_eq_get?, hpl]
    have h1 : prevSearch events (pre.length - 1 + 1) = p.objectId :=
      prevSearch_succ events hN (pre.length - 1) p hgp
    rw [show pre.length = pre.length - 1 + 1 from by omega, h1]
    rfl

/-- Two parsed events with the same objectId are the same event when the id
list has no duplicates. -/
theorem event_eq_of_id (events : List Event) (hN : (eventIds events).Nodup)
    (e1 e2 : Event) (h1 : e1 ∈ events) (h2 : e2 ∈ events)
    (hid : e1.objectId = e2.objectId) : e1 = e2 := by
  rcases List.mem_iff_get?.mp h1 with ⟨i1, hg1⟩
  rcases List.mem_iff_get?.mp h2 with ⟨i2, hg2⟩
  have ha := lastIdxOf_at_index events hN i1 e1 hg1
  have hb := lastIdxOf_at_index events hN i2 e2 hg2
  rw [hid] at ha
  rw [ha] at hb
  have hi : i1 = i2 := Option.some_inj.mp hb
  rw [hi, hg2] at hg1
  exact (Option.some_inj.mp hg1).symm

theorem parentEdges_target (events : List Event) (e : Event) (x : Edge)
    (hx : x ∈ parentEdges events e) : x.target = e.objectId := by
  unfold parentEdges at hx
  rcases List.mem_flatMap.mp hx with ⟨p, _, hxp⟩
  split at hxp
  · rw [List.mem_singleton.mp hxp]
  · split at hxp
    · rw [List.mem_singleton.mp hxp]
    · simp at hxp

/-- What a first-pass contribution can look like: the violation edge, an
edge targeting the contributing event, or the missing-id forward edge to the
next document position. -/
theorem contrib_first_elem (events sorted : List Event) (srcIds : List String)
    (prevId : String) (e : Event) (x : Edge)
    (hx : x ∈ (contrib events sorted srcIds prevId e).1) :
    (isViolationEv e = true ∧
      x = ⟨prevSearch events (docPos events e), e.objectId⟩) ∨
    (isViolationEv e = false ∧ x.target = e.objectId) ∨
    (isViolationEv e = false ∧ ∃ nid,
      nextSearch events (docPos events e) = some nid ∧ x = ⟨e.objectId, nid⟩) := by
  unfold contrib at hx
  by_cases hv : isViolationEv e = true
  · rw [if_pos hv] at hx
    exact Or.inl ⟨hv, List.mem_singleton.mp hx⟩
  · rw [if_neg hv] at hx
    have hv' : isViolationEv e = false := Bool.eq_false_iff.mpr hv
    by_cases hp : e.parentObjectIds ≠ []
    · rw [if_pos hp] at hx
      exact Or.inr (Or.inl ⟨hv', parentEdges_target events e x hx⟩)
    · rw [if_neg hp] at hx
      by_cases hs : isSourceEv e = true
      · rw [if_pos hs] at hx
        refine Or.inr (Or.inl ⟨hv', ?_⟩)
        rw [List.mem_singleton.mp hx]
      · rw [if_neg hs] at hx
        by_cases hm : e.objectId ∈ missingIdEvents events
        · rw [if_pos hm] at hx
          rcases List.mem_cons.mp hx with hx | hx
          · refine Or.inr (Or.inl ⟨hv', ?_⟩)
            rw [hx]
          · cases hns : nextSearch events (docPos events e) with
            | some nid =>
              rw [hns] at hx
              exact Or.inr (Or.inr ⟨hv', nid, rfl, List.mem_singleton.mp hx⟩)
            | none =>
              rw [hns] at hx
              simp at hx
        · rw [if_neg hm] at hx
          by_cases hsl : srcIds ≠ [] ∧ e.objectId ∉ srcIds
          · rw [if_pos hsl] at hx
            simp at hx
          · rw [if_neg hsl] at hx
            simp at hx

/-- Second-pass records always carry a non-violation event's own id as the
future edge target. -/
theorem contrib_pending_elem (events sorted : List Event) (srcIds : List String)
    (prevId : String) (e : Event) (pr : String × String)
    (hp : pr ∈ (contrib events sorted srcIds prevId e).2) :
    isViolationEv e = false ∧ pr.2 = e.objectId := by
  unfold contrib at hp
  by_cases hv : isViolationEv e = true
  · rw [if_pos hv] at hp
    simp at hp
  · rw [if_neg hv] at hp
    refine ⟨Bool.eq_false_iff.mpr hv, ?_⟩
    by_cases hpa : e.parentObjectIds ≠ []
    · rw [if_pos hpa] at hp
      simp at hp
    · rw [if_neg hpa] at hp
      by_cases hs : isSourceEv e = true
      · rw [if_pos hs] at hp
        simp at hp
      · rw [if_neg hs] at hp
        by_cases hm : e.objectId ∈ missingIdEvents events
        · rw [if_pos hm] at hp
          simp at hp
        · rw [if_neg hm] at hp
          by_cases hsl : srcIds ≠ [] ∧ e.objectId ∉ srcIds
          · rw [if_pos hsl] at hp
            rw [List.mem_singleton.mp hp]
          · rw [if_neg hsl] at hp
            rw [List.mem_singleton.mp hp]

/-- The repair scan only ever appends the hardcoded edge. -/
theorem mem_hackPass_inv (x : Edge) :
    ∀ (ev : List Event) (l : List Edge), x ∈ hackPass ev l →
      x ∈ l ∨ x = ⟨"853-group", "951-group"⟩ := by
  intro ev
  induction ev with
  | nil => intro l h; exact Or.inl h
  | cons e es ih =>
    intro l h
    simp only [hackPass, List.foldl_cons] at h
    rcases ih _ h with h' | h'
    · split at h'
      · split at h'
        · exact Or.inl h'
        · rcases List.mem_append.mp h' with h'' | h''
          · exact Or.inl h''
          · exact Or.inr (List.mem_singleton.mp h'')
      · exact Or.inl h'
    · exact Or.inr h'

/-- Every edge of `buildEdges` is the base edge, a first-pass contribution,
a second-pass pair, or the hardcoded repair edge. -/
theorem mem_buildEdges_inv (events : List Event) (x : Edge)
    (hx : x ∈ buildEdges events) :
    x = ⟨"request", "route"⟩ ∨
    (∃ pv e, (pv, e) ∈ ("route" :: (sortK evTimeKey events).map (·.objectId)).zip
        (sortK evTimeKey events) ∧
      x ∈ (contrib events (sortK evTimeKey events) (sourceNodesList events) pv e).1) ∨
    (∃ pv e pr,
      (pv, e) ∈ ("route" :: (sortK evTimeKey events).map (·.objectId)).zip
        (sortK evTimeKey events) ∧
      pr ∈ (contrib events (sortK evTimeKey events) (sourceNodesList events) pv e).2 ∧
      x = ⟨pr.1, pr.2⟩) ∨
    x = ⟨"853-group", "951-group"⟩ := by
  have hx' : x ∈ hackPass events
      ((⟨"request", "route"⟩ : Edge) ::
        (((("route" :: (sortK evTimeKey events).map (·.objectId)).zip
            (sortK evTimeKey events)).map (fun pe =>
          contrib events (sortK evTimeKey events) (sourceNodesList events)
            pe.1 pe.2)).flatMap (·.1) ++
         (((("route" :: (sortK evTimeKey events).map (·.objectId)).zip
            (sortK evTimeKey events)).map (fun pe =>
          contrib events (sortK evTimeKey events) (sourceNodesList events)
            pe.1 pe.2)).flatMap (·.2)).map (fun pr => ⟨pr.1, pr.2⟩))) := hx
  rcases mem_hackPass_inv x events _ hx' with hm | hm
  · rcases List.mem_cons.mp hm with hm | hm
    · exact Or.inl hm
    · rcases List.mem_append.mp hm with hm | hm
      · rcases List.mem_flatMap.mp hm with ⟨c, hc, hxc⟩
        rcases List.mem_map.mp hc with ⟨pe, hpe, rfl⟩
        exact Or.inr (Or.inl ⟨pe.1, pe.2, hpe, hxc⟩)
      · rcases List.mem_map.mp hm with ⟨pr, hpr, rfl⟩
        rcases List.mem_flatMap.mp hpr with ⟨c, hc, hprc⟩
        rcases List.mem_map.mp hc with ⟨pe, hpe, rfl⟩
        exact Or.inr (Or.inr (Or.inl ⟨pe.1, pe.2, pr, hpe, hprc, rfl⟩))
  · exact Or.inr (Or.inr (Or.inr hm))

/-! # Claim C5 -/

/-- C5 counterexample: the claim states that a Trigger event gets exactly
one incoming edge and that its `parentObjectIds` are ignored.  For the
Trigger `951-group` (preceded by event `10`) listing parent `853`, the built
edge list gives the trigger two incoming edges, `10 → 951-group` and the
repair edge `853-group → 951-group`; and emptying its `parentObjectIds`
changes the output, so they are not ignored. -/
theorem c5_trigger_extra_incoming_edge :
    isViolationEv evC5t = true ∧
    buildEdges [evC5a, evC5t] =
      [⟨"request", "route"⟩, ⟨"route", "10"⟩, ⟨"10", "951-group"⟩,
        ⟨"853-group", "951-group"⟩] ∧
    ((buildEdges [evC5a, evC5t]).filter
      (fun x => x.target = evC5t.objectId)).length = 2 ∧
    evC5t.parentObjectIds = ["853"] ∧
    buildEdges [evC5a, { evC5t with parentObjectIds := [] }] =
      [⟨"request", "route"⟩, ⟨"route", "10"⟩, ⟨"10", "951-group"⟩] := by
  exact ⟨by decide, by decide, by decide, by decide, by decide⟩

/-- C5 (amended): a Trigger event `t` with a unique id always receives the
incoming edge from its document-order predecessor (`route` when it is
first); the violation branch runs before the `parentObjectIds` branch, so
the parent list plays no role there, and every incoming edge of `t` has the
predecessor as source — except possibly the hardcoded repair edge
`853-group → 951-group`, whose guard does read `parentObjectIds`. -/
theorem c5_trigger_pred_edge (events pre post : List Event) (t : Event)
    (predId : String)
    (hsplit : events = pre ++ t :: post)
    (hN : (eventIds events).Nodup)
    (hv : isViolationEv t = true)
    (hpred : predId = ((pre.getLast?).map (·.objectId)).getD "route")
    (hroute : t.objectId ≠ "route") :
    (⟨predId, t.objectId⟩ : Edge) ∈ buildEdges events ∧
    ∀ x ∈ buildEdges events, x.target = t.objectId →
      x.source = predId ∨ x = ⟨"853-group", "951-group"⟩ := by
  have htmem : t ∈ events := by
    rw [hsplit]
    exact List.mem_append_right _ (List.mem_cons_self _ _)
  have hdp : docPos events t = pre.length := docPos_split events pre post t hsplit hN
  have hps : prevSearch events (docPos events t) = predId := by
    rw [hdp, prevSearch_split events pre post t hsplit hN, hpred]
  constructor
  · have hts : t ∈ sortK evTimeKey events := (mem_sortK _ _ _).mpr htmem
    rcases exists_prev_zip (sortK evTimeKey events) "route" t hts with ⟨pv, hz⟩
    apply mem_buildEdges_first events pv t _ hz
    unfold contrib
    rw [if_pos hv, hps]
    exact List.mem_singleton.mpr rfl
  · intro x hx hxt
    rcases mem_buildEdges_inv events x hx with hb | hfst | hpend | hhack
    · rw [hb] at hxt
      exact absurd hxt.symm hroute
    · rcases hfst with ⟨pv, e, hz, hc⟩
      have hes : e ∈ sortK evTimeKey events := (List.of_mem_zip hz).2
      have hee : e ∈ events := (mem_sortK _ _ _).mp hes
      rcases contrib_first_elem events (sortK evTimeKey events)
          (sourceNodesList events) pv e x hc with
        ⟨hve, hxe⟩ | ⟨hve, hxe⟩ | ⟨hve, nid, hns, hxe⟩
      · have hid : e.objectId = t.objectId := by
          rw [hxe] at hxt
          exact hxt
        have het : e = t := event_eq_of_id events hN e t hee htmem hid
        left
        rw [hxe, het]
        exact hps
      · have hid : e.objectId = t.objectId := by
          rw [← hxe]
          exact hxt
        have het : e = t := event_eq_of_id events hN e t hee htmem hid
        have hcontra : isViolationEv t = false := by
          rw [← het]
          exact hve
        rw [hv] at hcontra
        exact Bool.noConfusion hcontra
      · have hid : nid = t.objectId := by
          rw [hxe] at hxt
          exact hxt
        rcases List.mem_iff_get?.mp hee with ⟨i, hgi⟩
        have hdpe : docPos events e = i := docPos_at_index events hN i e hgi
        rw [hdpe, nextSearch_eq events hN i] at hns
        rcases Option.map_eq_some'.mp hns with ⟨e2, hg2, hid2⟩
        have he2 : e2 ∈ events := List.get?_mem hg2
        have hid3 : e2.objectId = t.objectId := by rw [hid2, hid]
        have he2t : e2 = t := event_eq_of_id events hN e2 t he2 htmem hid3
        rw [he2t] at hg2
        have hlt : lastIdxOf (eventIds events) t.objectId = some (i + 1) :=
          lastIdxOf_at_index events hN (i + 1) t hg2
        have hlt2 : lastIdxOf (eventIds events) t.objectId = some pre.length := by
          apply lastIdxOf_at_index events hN pre.length t
          rw [hsplit]
          exact get?_split pre post t
        rw [hlt] at hlt2
        have hip : i + 1 = pre.length := Option.some_inj.mp hlt2
        have hgp : events.get? (pre.length - 1) = some e := by
          rw [show pre.length - 1 = i from by omega]
          exact hgi
        have hlast : pre.getLast? = some e := by
          rw [List.getLast?_eq_get?]
          rw [hsplit, List.get?_append (by omega)] at hgp
          exact hgp
        left
        rw [hxe]
        show e.objectId = predId
        rw [hpred, hlast]
        rfl
    · rcases hpend with ⟨pv, e, pr, hz, hp, hxe⟩
      rcases contrib_pending_elem events (sortK evTimeKey events)
          (sourceNodesList events) pv e pr hp with ⟨hve, hpr2⟩
      have hes : e ∈ sortK evTimeKey events := (List.of_mem_zip hz).2
      have hee : e ∈ events := (mem_sortK _ _ _).mp hes
      have hid : e.objectId = t.objectId := by
        rw [← hpr2]
        rw [hxe] at hxt
        exact hxt
      have het : e = t := event_eq_of_id events hN e t hee htmem hid
      have hcontra : isViolationEv t = false := by
        rw [← het]
        exact hve
      rw [hv] at hcontra
      exact Bool.noConfusion hcontra
    · exact Or.inr hhack

/-- C5 witness: the amended statement applied to a concrete two-event trace
whose Trigger `9` is preceded by event `7`. -/
theorem c5_trigger_pred_edge_witness :
    ([evC5s, evC5w] = [evC5s] ++ evC5w :: [] ∧
      (eventIds [evC5s, evC5w]).Nodup ∧
      isViolationEv evC5w = true ∧
      ("7" : String) = ((([evC5s].getLast?).map (·.objectId)).getD "route") ∧
      evC5w.objectId ≠ "route") ∧
    ((⟨"7", evC5w.objectId⟩ : Edge) ∈ buildEdges [evC5s, evC5w] ∧
      ∀ x ∈ buildEdges [evC5s, evC5w], x.target = evC5w.objectId →
        x.source = "7" ∨ x = ⟨"853-group", "951-group"⟩) := by
  refine ⟨⟨by decide, by decide, by decide, by decide, by decide⟩, ?_⟩
  exact c5_trigger_pred_edge [evC5s, evC5w] [evC5s] [] evC5w "7"
    (by decide) (by decide) (by decide) (by decide) (by decide)

/-! ## The dedup pass as implemented (for claim C2) -/

theorem posMapGet_set_other (id : String) (ps : List Nat) (d : String)
    (h : d ≠ id) :
    ∀ (m : List (String × List Nat)),
      posMapGet (posMapSet m id ps) d = posMapGet m d := by
  intro m
  induction m with
  | nil =>
    simp only [posMapSet, posMapGet]
    rw [if_neg (fun hc => h hc.symm)]
  | cons kv rest ih =>
    obtain ⟨k, qs⟩ := kv
    by_cases hk : k = id
    · simp only [posMapSet, if_pos hk, posMapGet]
      have hkd : ¬ (k = d) := fun hc => h (by rw [← hc]; exact hk)
      rw [if_neg hkd, if_neg hkd]
    · simp only [posMapSet, if_neg hk, posMapGet]
      rw [ih]

theorem posMapGet_add_same (id : String) (i : Nat) :
    ∀ (m : List (String × List Nat)),
      posMapGet (posMapAdd m id i) id = posMapGet m id ++ [i] := by
  intro m
  induction m with
  | nil => simp [posMapAdd, posMapGet]
  | cons kv rest ih =>
    obtain ⟨k, qs⟩ := kv
    by_cases hk : k = id
    · simp only [posMapAdd, if_pos hk, posMapGet]
    · simp only [posMapAdd, if_neg hk, posMapGet]
      exact ih

theorem posMapGet_add_other (id : String) (i : Nat) (d : String) (h : d ≠ id) :
    ∀ (m : List (String × List Nat)),
      posMapGet (posMapAdd m id i) d = posMapGet m d := by
  intro m
  induction m with
  | nil =>
    simp only [posMapAdd, posMapGet]
    rw [if_neg (fun hc => h hc.symm)]
  | cons kv rest ih =>
    obtain ⟨k, qs⟩ := kv
    by_cases hk : k = id
    · simp only [posMapAdd, if_pos hk, posMapGet]
      have hkd : ¬ (k = d) := fun hc => h (by rw [← hc]; exact hk)
      rw [if_neg hkd, if_neg hkd]
    · simp only [posMapAdd, if_neg hk, posMapGet]
      rw [ih]

/-- The collection pass records exactly the scan positions of every id. -/
theorem posMapGet_buildFrom (d : String) :
    ∀ (rest : List String) (n : Nat) (m : List (String × List Nat)),
      posMapGet (buildPosMapFrom n rest m) d =
        posMapGet m d ++ positionsFrom d n rest := by
  intro rest
  induction rest with
  | nil =>
    intro n m
    simp [buildPosMapFrom, positionsFrom]
  | cons x xs ih =>
    intro n m
    simp only [buildPosMapFrom]
    rw [ih]
    by_cases hx : x = d
    · rw [hx, posMapGet_add_same d n m]
      have hpf : positionsFrom d n (d :: xs) = n :: positionsFrom d (n + 1) xs := by
        simp [positionsFrom]
      rw [hpf, List.append_assoc]
      rfl
    · rw [posMapGet_add_other x n d (fun hc => hx hc.symm)]
      have hpf : positionsFrom d n (x :: xs) = positionsFrom d (n + 1) xs := by
        simp [positionsFrom, hx]
      rw [hpf]

theorem posMapGet_build (ids : List String) (d : String) :
    posMapGet (buildPosMap ids) d = positionsOf ids d := by
  unfold buildPosMap positionsOf
  rw [posMapGet_buildFrom]
  rfl

/-- Shifting the enumeration base into the synthesized suffix. -/
theorem setFold_enumFrom_succ (d : String) :
    ∀ (ps : List Nat) (j : Nat) (acc : List String),
      ((ps.enumFrom (j + 1)).foldl
        (fun a kp => a.set kp.2 (d ++ "-" ++ toString kp.1)) acc) =
      ((ps.enumFrom j).foldl
        (fun a kp => a.set kp.2 (d ++ "-" ++ toString (kp.1 + 1))) acc) := by
  intro ps
  induction ps with
  | nil => intro j acc; rfl
  | cons p rest ih =>
    intro j acc
    simp only [List.enumFrom_cons, List.foldl_cons]
    rw [ih (j + 1)]

/-- The id-list component of the rename loop is a plain fold of `List.set`
over the enumerated positions. -/
theorem renameLoop_fst (d : String) :
    ∀ (ps : List Nat) (k : Nat)
      (st : List String × List (String × List Nat)),
      (renameLoop d k ps st).1 =
        (ps.enumFrom k).foldl
          (fun a kp => a.set kp.2 (d ++ "-" ++ toString kp.1)) st.1 := by
  intro ps
  induction ps with
  | nil => intro k st; rfl
  | cons p rest ih =>
    intro k st
    simp only [renameLoop, List.enumFrom_cons, List.foldl_cons]
    rw [ih (k + 1) (st.1.set p (d ++ "-" ++ toString k),
      posMapSet st.2 (d ++ "-" ++ toString k) [p])]

/-- Fed the *original* positions of `d`, the rename loop acts on the id list
exactly as the spec-style per-duplicate step. -/
theorem renameLoop_eq_renameOne (ids cur : List String)
    (m : List (String × List Nat)) (d : String) :
    (renameLoop d 1 ((positionsOf ids d).drop 1) (cur, m)).1 =
      renameOne ids cur d := by
  rw [renameLoop_fst d ((positionsOf ids d).drop 1) 1 (cur, m)]
  exact (setFold_enumFrom_succ d ((positionsOf ids d).drop 1) 0 cur).trans rfl

/-- The rename loop only writes map entries for its synthesized ids. -/
theorem posMapGet_renameLoop (d d' : String) :
    ∀ (ps : List Nat) (k : Nat)
      (st : List String × List (String × List Nat)),
      (∀ j, k ≤ j → j < k + ps.length → d' ≠ d ++ "-" ++ toString j) →
      posMapGet (renameLoop d k ps st).2 d' = posMapGet st.2 d' := by
  intro ps
  induction ps with
  | nil => intro k st _; rfl
  | cons p rest ih =>
    intro k st hne
    simp only [renameLoop]
    rw [ih (k + 1) (st.1.set p (d ++ "-" ++ toString k),
        posMapSet st.2 (d ++ "-" ++ toString k) [p])
      (fun j hj1 hj2 => hne j (by omega)
        (by simp only [List.length_cons]; omega))]
    exact posMapGet_set_other (d ++ "-" ++ toString k) [p] d'
      (hne k (le_refl k) (by simp only [List.length_cons]; omega)) st.2

/-- As long as no synthesized id collides with an existing id, the map
entries of the not-yet-processed duplicates are never overwritten and the
implemented fold coincides with the spec-style fold over the same keys. -/
theorem dedup_fold_eq (ids : List String)
    (hfresh : ∀ d' ∈ ids, ∀ j < (positionsOf ids d').length, 0 < j →
      (d' ++ "-" ++ toString j) ∉ ids) :
    ∀ (ks cur : List String) (m : List (String × List Nat)),
      (∀ d ∈ ks, d ∈ ids) →
      (∀ d ∈ ks, posMapGet m d = positionsOf ids d) →
      (ks.foldl dedupStep (cur, m)).1 = ks.foldl (renameOne ids) cur := by
  intro ks
  induction ks with
  | nil => intro cur m _ _; rfl
  | cons d0 rest ih =>
    intro cur m hsub hget
    simp only [List.foldl_cons]
    have hd0 : posMapGet m d0 = positionsOf ids d0 :=
      hget d0 (List.mem_cons_self _ _)
    have hd0i : d0 ∈ ids := hsub d0 (List.mem_cons_self _ _)
    have hstep1 : (dedupStep (cur, m) d0).1 = renameOne ids cur d0 := by
      simp only [dedupStep]
      rw [hd0]
      exact renameLoop_eq_renameOne ids cur m d0
    have hstep2 : ∀ d ∈ rest,
        posMapGet (dedupStep (cur, m) d0).2 d = positionsOf ids d := by
      intro d hd
      have hne : ∀ j, 1 ≤ j → j < 1 + ((positionsOf ids d0).drop 1).length →
          d ≠ d0 ++ "-" ++ toString j := by
        intro j hj1 hj2 hc
        have hdi : d ∈ ids := hsub d (List.mem_cons_of_mem _ hd)
        have hjlen : j < (positionsOf ids d0).length := by
          rw [List.length_drop] at hj2
          omega
        exact hfresh d0 hd0i j hjlen (by omega) (hc ▸ hdi)
      simp only [dedupStep]
      rw [hd0]
      rw [posMapGet_renameLoop d0 d ((positionsOf ids d0).drop 1) 1 (cur, m) hne]
      exact hget d (List.mem_cons_of_mem _ hd)
    rw [← hstep1]
    exact ih ((dedupStep (cur, m) d0).1) ((dedupStep (cur, m) d0).2)
      (fun d hd => hsub d (List.mem_cons_of_mem _ hd)) hstep2

/-- Membership in the `duplicateIds` snapshot. -/
theorem mem_dupKeys (ids : List String) (d' : String) :
    d' ∈ (jsKeyOrder (distinctKeys ids)).filter (fun d => 1 < ids.count d) ↔
      (d' ∈ distinctKeys ids ∧ 1 < ids.count d') := by
  rw [List.mem_filter]
  constructor
  · intro h
    exact ⟨(mem_jsKeyOrder _ d').mp h.1, by simpa using h.2⟩
  · intro h
    exact ⟨(mem_jsKeyOrder _ d').mpr h.1, by simpa using h.2⟩

theorem nodup_dupKeys (ids : List String) :
    ((jsKeyOrder (distinctKeys ids)).filter (fun d => 1 < ids.count d)).Nodup :=
  (nodup_jsKeyOrder _ (nodup_distinctKeys ids)).filter _

/-- With fresh synthesized ids the implemented dedup equals the spec-style
rename fold over the `duplicateIds` snapshot. -/
theorem dedupIds_eq_fold (ids : List String)
    (hfresh : ∀ d' ∈ ids, ∀ j < (positionsOf ids d').length, 0 < j →
      (d' ++ "-" ++ toString j) ∉ ids) :
    dedupIds ids =
      ((jsKeyOrder (distinctKeys ids)).filter (fun d => 1 < ids.count d)).foldl
        (renameOne ids) ids := by
  unfold dedupIds
  apply dedup_fold_eq ids hfresh
  · intro d hd
    exact (mem_distinctKeys ids d).mp ((mem_dupKeys ids d).mp hd).1
  · intro d _
    exact posMapGet_build ids d

/-! # Claim C2 -/

/-- C2 counterexample: the claim states that every duplicate id's `k`-th
later occurrence is renamed to `"{id}-{k}"`.  On ids `42, 42, 42-1, 42-1`
the rename of the second `42` writes `objectIdPositions["42-1"] = [1]`,
overwriting the positions of the *distinct duplicate* id `42-1`; its second
occurrence (position 3) is then never renamed, so the program returns
`42, 42-1, 42-1, 42-1` where the claimed scheme (`dedupIdsSpec`) would give
`42, 42-1, 42-1, 42-1-1`. -/
theorem c2_rename_suppressed_by_clobber :
    dedupIds ["42", "42", "42-1", "42-1"] = ["42", "42-1", "42-1", "42-1"] ∧
    1 < List.count "42-1" ["42", "42", "42-1", "42-1"] ∧
    (positionsOf ["42", "42", "42-1", "42-1"] "42-1").get? 1 = some 3 ∧
    (dedupIds ["42", "42", "42-1", "42-1"]).get? 3 ≠
      some ("42-1" ++ "-" ++ toString 1) ∧
    dedupIds ["42", "42", "42-1", "42-1"] ≠
      dedupIdsSpec ["42", "42", "42-1", "42-1"] := by
  exact ⟨by decide, by decide, by decide, by decide, by decide⟩

/-- C2 (amended): provided no synthesized id `"{d}-{j}"` collides with an id
already in the list, the dedup pass leaves the first occurrence of every
duplicated id `d` unchanged and rewrites its `k`-th later occurrence to
`"{d}-{k}"`; without that proviso the `objectIdPositions[newId]` overwrite
can suppress the renames of a later duplicate. -/
theorem c2_dedup_rename_fresh (ids : List String) (d : String) (k p : Nat)
    (hfresh : ∀ d' ∈ ids, ∀ j < (positionsOf ids d').length, 0 < j →
      (d' ++ "-" ++ toString j) ∉ ids)
    (_hdup : 1 < ids.count d)
    (hk : (positionsOf ids d).get? k = some p) :
    (dedupIds ids).get? p =
      some (if k = 0 then d else d ++ "-" ++ toString k) := by
  rw [dedupIds_eq_fold ids hfresh]
  exact foldl_renameOne_get?_occ ids _ (nodup_dupKeys ids) (mem_dupKeys ids)
    d k p hk

/-- C2 witness: concrete instantiation at the duplicated id `42`, where the
synthesized id `42-1` is fresh. -/
theorem c2_dedup_rename_fresh_witness :
    (∀ d' ∈ ["42", "42"], ∀ j < (positionsOf ["42", "42"] d').length, 0 < j →
      (d' ++ "-" ++ toString j) ∉ ["42", "42"]) ∧
    1 < List.count "42" ["42", "42"] ∧
    (positionsOf ["42", "42"] "42").get? 1 = some 1 ∧
    (dedupIds ["42", "42"]).get? 1 =
      some (if 1 = 0 then "42" else "42" ++ "-" ++ toString 1) := by
  refine ⟨by decide, by decide, by decide, ?_⟩
  exact c2_dedup_rename_fresh ["42", "42"] "42" 1 1 (by decide) (by decide)
    (by decide)

end Traceviz
